import Mathlib

/-!
Shallow embedding of the GEMM engine in `src/gemm.rs` (crate `bench-gemm`).

Memory is modelled as total functions `ℤ → T` from element-granular addresses to
values.  The two read-only operands L and R live in one shared operand address
space `memOp` (the pre-normalisation and wrapper transposes exchange the L and R
pointers, so both operand slots must read the same memory); the mutable
destination D lives in its own space, which is sound because the calling
contract forbids D from aliasing L or R.  Every write the code performs on the
destination matrix is represented as a cell update `(address, old value ↦ new value)`,
and a run of the engine is the left fold of its cell-update list over the initial
destination memory.  Control flow in the source never reads the destination memory,
so the cell-update list of a run depends only on the shapes, strides, scalars and
the L/R contents — a fact the hyperproperty proof below exploits.

Machine integers: matrix extents are `ℕ`, strides and addresses are `ℤ` (the source
uses `usize`/`isize`; none of the verified claims concerns wrap-around, and
`wrapping_abs` is modelled as `Int.natAbs`, which differs only at `isize::MIN`).
The element type `T` is an arbitrary commutative ring with decidable equality,
standing in for the exact-arithmetic content of `f32`/`f64`.

External collaborators that are not part of this repository's sources are modelled
from the specification and are marked `Modelled from the spec:` in their doc
comments: the block-size oracle (`cache::kernel_params`) is passed in as an opaque
argument triple, the micro-kernels (`microkernel::…`) by their §6 contract, the
packers (`pack_operands::{pack_lhs, pack_rhs}`) by their §4.3 layout, and
`dyn_stack::StackReq` by the §4.6/§7 byte accounting.
-/

namespace GemmModel

/-- Memory: a total map from element-granular addresses to values. -/
abbrev Mem (T : Type) : Type := ℤ → T

/-- One destination write: an address together with the function taking the old
value stored there to the new value. -/
abbrev Cell (T : Type) : Type := ℤ × (T → T)

/-- Apply a sequence of cell updates to a memory, in order. -/
def applyCells {T : Type} (mem : Mem T) (cells : List (Cell T)) : Mem T :=
  cells.foldl (fun mm c => Function.update mm c.1 (c.2 (mm c.1))) mem

/-- Source `div_ceil` (gemm.rs lines 13–22). -/
def div_ceil (a b : ℕ) : ℕ :=
  let div := a / b
  let rem := a % b
  if rem = 0 then div else div + 1

/-- The argument bundle of `gemm_basic_generic`: extents, the three matrix views
(base address, column stride, row stride), the `read_dst` flag and the scalars. -/
structure GArgs (T : Type) where
  m : ℕ
  n : ℕ
  k : ℕ
  dst : ℤ
  dst_cs : ℤ
  dst_rs : ℤ
  read_dst : Bool
  lhs : ℤ
  lhs_cs : ℤ
  lhs_rs : ℤ
  rhs : ℤ
  rhs_cs : ℤ
  rhs_rs : ℤ
  alpha : T
  beta : T

/-- Address of destination element (i, j). -/
def dstAddr {T : Type} (A : GArgs T) (i j : ℕ) : ℤ :=
  A.dst + (i : ℤ) * A.dst_rs + (j : ℤ) * A.dst_cs

/-- Address of left-hand operand element (i, d). -/
def lhsAddr {T : Type} (A : GArgs T) (i d : ℕ) : ℤ :=
  A.lhs + (i : ℤ) * A.lhs_rs + (d : ℤ) * A.lhs_cs

/-- Address of right-hand operand element (d, j). -/
def rhsAddr {T : Type} (A : GArgs T) (d j : ℕ) : ℤ :=
  A.rhs + (d : ℤ) * A.rhs_rs + (j : ℤ) * A.rhs_cs

/-- Lines 68–73: if `dst_rs < 0`, advance D's base by `(m-1)·dst_rs` and negate
`dst_rs`, mirroring the transformation on L's base and row stride. -/
def normRs {T : Type} (A : GArgs T) : GArgs T :=
  if A.dst_rs < 0 then
    { A with
      dst := A.dst + ((A.m - 1 : ℕ) : ℤ) * A.dst_rs
      dst_rs := -A.dst_rs
      lhs := A.lhs + ((A.m - 1 : ℕ) : ℤ) * A.lhs_rs
      lhs_rs := -A.lhs_rs }
  else A

/-- Lines 75–80: if `dst_cs < 0`, advance D's base by `(n-1)·dst_cs` and negate
`dst_cs`, mirroring the transformation on R's base and column stride. -/
def normCs {T : Type} (A : GArgs T) : GArgs T :=
  if A.dst_cs < 0 then
    { A with
      dst := A.dst + ((A.n - 1 : ℕ) : ℤ) * A.dst_cs
      dst_cs := -A.dst_cs
      rhs := A.rhs + ((A.n - 1 : ℕ) : ℤ) * A.rhs_cs
      rhs_cs := -A.rhs_cs }
  else A

/-- Lines 82–87: the gevm transpose — when `m ≤ 4` and `|rhs_cs| ≤ |rhs_rs|`,
swap (m, n), the destination strides, and the roles and strides of L and R
(`wrapping_abs` modelled as `Int.natAbs`). -/
def normSwap {T : Type} (A : GArgs T) : GArgs T :=
  if A.m ≤ 4 ∧ A.rhs_cs.natAbs ≤ A.rhs_rs.natAbs then
    { A with
      m := A.n
      n := A.m
      dst_rs := A.dst_cs
      dst_cs := A.dst_rs
      lhs := A.rhs
      lhs_cs := A.rhs_rs
      lhs_rs := A.rhs_cs
      rhs := A.lhs
      rhs_cs := A.lhs_rs
      rhs_rs := A.lhs_cs }
  else A

/-- Pre-normalisation of `gemm_basic_generic` (lines 68–87), in source order. -/
def normalize {T : Type} (A : GArgs T) : GArgs T :=
  normSwap (normCs (normRs A))

/-- Row relabelling performed by the negative-`dst_rs` fix: the post-fix row
index `i` denotes what row `m - 1 - i` denoted before the fix. -/
def rowMap {T : Type} (A : GArgs T) (i : ℕ) : ℕ :=
  if A.dst_rs < 0 then A.m - 1 - i else i

/-- Column relabelling performed by the negative-`dst_cs` fix. -/
def colMap {T : Type} (A : GArgs T) (j : ℕ) : ℕ :=
  if A.dst_cs < 0 then A.n - 1 - j else j

/-- Whether the gevm transpose of the pre-normalisation fires (its condition is
read off the original arguments: the stride fixes change neither `m` nor any
stride's absolute value). -/
def gevmSwaps {T : Type} (A : GArgs T) : Prop :=
  A.m ≤ 4 ∧ A.rhs_cs.natAbs ≤ A.rhs_rs.natAbs

instance {T : Type} (A : GArgs T) : Decidable (gevmSwaps A) := by
  unfold gevmSwaps; infer_instance

/-- The original (row, column) index pair of D that a post-normalisation index
pair denotes. -/
def origOf {T : Type} (A : GArgs T) (p : ℕ × ℕ) : ℕ × ℕ :=
  if gevmSwaps A then (rowMap A p.2, colMap A p.1) else (rowMap A p.1, colMap A p.2)

/-- The post-normalisation index pair denoting a given original index pair of D
(the inverse of `origOf` on the index grid). -/
def invOf {T : Type} (A : GArgs T) (p : ℕ × ℕ) : ℕ × ℕ :=
  if gevmSwaps A then (colMap A p.2, rowMap A p.1) else (rowMap A p.1, colMap A p.2)

/-- Column-major enumeration of an m × n index grid, matching the source's
`for col in 0..n { for row in 0..m { … } }` loops; entries are (row, col). -/
def gridPairs (m n : ℕ) : List (ℕ × ℕ) :=
  (List.range n).flatMap fun col => (List.range m).map fun row => (row, col)

/-- The `zero_dst` closure (lines 89–111): scale D by α when `read_dst`, else
store zeros. -/
def zeroDstCells {T : Type} [CommRing T] (A : GArgs T) : List (Cell T) :=
  (gridPairs A.m A.n).map fun p =>
    (dstAddr A p.1 p.2, fun d => if A.read_dst then A.alpha * d else 0)

/-- The `k == 1` rank-1 update (lines 118–159), with its three sub-cases on
(`read_dst`, α = 1); the (`read_dst`, α = 1) case uses the fused multiply-add
argument `mulAdd` exactly as the source uses `mul_add`. -/
def kOneCells {T : Type} [CommRing T] [DecidableEq T]
    (mulAdd : T → T → T → T) (memOp : Mem T) (A : GArgs T) : List (Cell T) :=
  if A.read_dst then
    if A.alpha = 1 then
      (gridPairs A.m A.n).map fun p =>
        let r := A.beta * memOp (A.rhs + (p.2 : ℤ) * A.rhs_cs)
        let l := memOp (A.lhs + (p.1 : ℤ) * A.lhs_rs)
        (dstAddr A p.1 p.2, fun d => mulAdd l r d)
    else
      (gridPairs A.m A.n).map fun p =>
        let r := A.beta * memOp (A.rhs + (p.2 : ℤ) * A.rhs_cs)
        let l := memOp (A.lhs + (p.1 : ℤ) * A.lhs_rs)
        (dstAddr A p.1 p.2, fun d => A.alpha * d + l * r)
  else
    (gridPairs A.m A.n).map fun p =>
      let r := A.beta * memOp (A.rhs + (p.2 : ℤ) * A.rhs_cs)
      let l := memOp (A.lhs + (p.1 : ℤ) * A.lhs_rs)
      (dstAddr A p.1 p.2, fun _ => l * r)

/-- The gemv branch (lines 162–197): `zero_dst`, then for each depth accumulate
the outer product of an L column with up to four β-scaled R entries; the unrolled
`seq!` columns are the inner loop.  The `1 ≤ n ≤ 4` guard mirrors the source's
`match n { 1..=4 => …, _ => () }`. -/
def gemvCells {T : Type} [CommRing T] (memOp : Mem T) (A : GArgs T) : List (Cell T) :=
  zeroDstCells A ++
    (if 1 ≤ A.n ∧ A.n ≤ 4 then
      (List.range A.k).flatMap fun depth =>
        (List.range A.m).flatMap fun row =>
          (List.range A.n).map fun (col : ℕ) =>
            let rv := A.beta * memOp (A.rhs + (col : ℤ) * A.rhs_cs + (depth : ℤ) * A.rhs_rs)
            let lv := memOp (A.lhs + (depth : ℤ) * A.lhs_cs + (row : ℤ) * A.lhs_rs)
            (dstAddr A row col, fun d => d + rv * lv)
    else [])

/-- Modelled from the spec: the output triple of the block-size oracle
`cache::kernel_params` (§4.2), which is not part of this repository's sources.
Theorems quantify over the oracle and assume only its contract (strictly
positive sizes, `MR ∣ mc`, `NR ∣ nc`). -/
structure KParams where
  kc : ℕ
  mc : ℕ
  nc : ℕ

/-- The α-mode of a depth slice (lines 245–251): one kernel dispatch table per
mode. -/
inductive AlphaMode where
  | zero
  | one
  | general
deriving DecidableEq, Repr

/-- Dispatch-table selection from the current logical α (lines 245–251). -/
def modeOf {T : Type} [CommRing T] [DecidableEq T] (a : T) : AlphaMode :=
  if a = 0 then .zero else if a = 1 then .one else .general

/-- Trace record of one depth slice of the blocked driver: which column panel,
which depth offset, the slice's index within its panel, the logical α passed to
the micro-kernels, and the dispatch table selected. -/
structure SliceInfo (T : Type) where
  colOuter : ℕ
  depthOuter : ℕ
  sliceIdx : ℕ
  alphaUsed : T
  mode : AlphaMode
deriving DecidableEq

/-- Decompose `[0, total)` into chunks of size `step` (the last one clipped),
with explicit fuel so the definition is kernel-reducible; `fuel = total`
suffices whenever `0 < step`.  Mirrors the drivers'
`while x != total { let c = step.min(total - x); …; x += c; }` loops. -/
def chunksFromAux (step : ℕ) : ℕ → ℕ → ℕ → List (ℕ × ℕ)
  | 0, _, _ => []
  | fuel + 1, start, total =>
    if start < total then
      let len := min step (total - start)
      (start, len) :: chunksFromAux step fuel (start + len) total
    else []

/-- The chunk list of `[0, total)` with step `step`. -/
def chunksFrom (step total : ℕ) : List (ℕ × ℕ) :=
  chunksFromAux step total 0 total

/-- The job range of thread `tid` (lines 290–301): `q = J / T` jobs each, the
first `J mod T` threads taking one extra job. -/
def jobRange (nJobs nThreads tid : ℕ) : ℕ × ℕ :=
  let q := nJobs / nThreads
  let rem := nJobs - nThreads * q
  if tid < rem then (tid * (q + 1), tid * (q + 1) + (q + 1))
  else (tid * q + rem, tid * q + rem + q)

/-- Number of MR-row mini-chunks in a band of `mChunk` rows
(`(m_chunk + (MR - 1)) / MR`). -/
def nRowMiniOf (MR mChunk : ℕ) : ℕ := (mChunk + (MR - 1)) / MR

/-- The (j, i) iteration grid of one row band: column mini-chunk outer, row
mini-chunk inner, matching the tile loops at lines 337–394. -/
def jiList (nCol nRow : ℕ) : List (ℕ × ℕ) :=
  (List.range nCol).flatMap fun j => (List.range nRow).map fun i => (j, i)

/-- Context of one invocation of the blocked driver (lines 199–411): the
post-normalisation arguments, the ISA shape constants `(N, MR, NR)`, the oracle
output `(kc, mc, nc)`, the SIMD stride in elements of one cache line, the thread
count after the top-level small-workload suppression, and the read-only operand
memories. -/
structure DriverCtx (T : Type) where
  A : GArgs T
  N : ℕ
  MR : ℕ
  NR : ℕ
  kc : ℕ
  mc : ℕ
  nc : ℕ
  simdStride : ℕ
  nThreadsTop : ℕ
  memOp : Mem T

/-- `packed_rhs_stride` (line 211). -/
def DriverCtx.packedRhsStride {T : Type} (C : DriverCtx T) : ℕ :=
  div_ceil (C.kc * C.NR) C.simdStride * C.simdStride

/-- `packed_lhs_stride` (line 212). -/
def DriverCtx.packedLhsStride {T : Type} (C : DriverCtx T) : ℕ :=
  div_ceil (C.kc * C.MR) C.simdStride * C.simdStride

/-- `do_pack_rhs = m > MR && rhs_rs.abs() != 1` (line 228). -/
def DriverCtx.doPackRhs {T : Type} (C : DriverCtx T) : Bool :=
  decide (C.MR < C.A.m) && decide (C.A.rhs_rs.natAbs ≠ 1)

/-- `packed_rhs_rs` (line 230). -/
def DriverCtx.packedRhsRs {T : Type} (C : DriverCtx T) : ℤ :=
  if C.doPackRhs then (C.NR : ℤ) else C.A.rhs_rs

/-- `packed_rhs_cs` (line 231). -/
def DriverCtx.packedRhsCs {T : Type} (C : DriverCtx T) : ℤ :=
  if C.doPackRhs then 1 else C.A.rhs_cs

/-- `do_pack_lhs = (m_chunk % MR != 0) || lhs_rs != 1 || n > 16` (line 320). -/
def DriverCtx.doPackLhs {T : Type} (C : DriverCtx T) (mChunk : ℕ) : Bool :=
  decide (mChunk % C.MR ≠ 0) || decide (C.A.lhs_rs ≠ 1) || decide (16 < C.A.n)

/-- `packed_lhs_cs` (line 321). -/
def DriverCtx.packedLhsCs {T : Type} (C : DriverCtx T) (mChunk : ℕ) : ℤ :=
  if C.doPackLhs mChunk then (C.MR : ℤ) else C.A.lhs_cs

/-- The row bands of the m axis (`row_outer` loop, step `mc`). -/
def DriverCtx.bands {T : Type} (C : DriverCtx T) : List (ℕ × ℕ) :=
  chunksFrom C.mc C.A.m

/-- Context of one depth slice of one column panel: the driver context, the
panel (`col_outer`, `n_chunk`), the slice (`depth_outer`, `k_chunk`) and the
logical α of this slice. -/
structure SliceCtx (T : Type) where
  C : DriverCtx T
  colOuter : ℕ
  nChunk : ℕ
  depthOuter : ℕ
  kChunk : ℕ
  alphaCur : T

/-- The dispatch table of this slice. -/
def SliceCtx.mode {T : Type} [CommRing T] [DecidableEq T] (S : SliceCtx T) : AlphaMode :=
  modeOf S.alphaCur

/-- `n_col_mini_chunks = (n_chunk + (NR - 1)) / NR` (line 268). -/
def SliceCtx.nColMini {T : Type} (S : SliceCtx T) : ℕ :=
  (S.nChunk + (S.C.NR - 1)) / S.C.NR

/-- Modelled from the spec: the contents of the shared packed-R buffer after
`pack_operands::pack_rhs` (§4.3) copies the current `k_chunk × n_chunk` slice of
R.  Block `blk` starts at offset `blk · packed_rhs_stride`; within a block the
element for depth `d` and block-local column `jj` sits at offset `d · NR + jj`
(row stride NR, column stride 1).  Offsets outside the packed data read as 0. -/
def SliceCtx.packedRhsBuf {T : Type} [CommRing T] (S : SliceCtx T) : Mem T := fun a =>
  if 0 ≤ a then
    let off := a.toNat
    let blk := off / S.C.packedRhsStride
    let r := off % S.C.packedRhsStride
    let d := r / S.C.NR
    let jj := r % S.C.NR
    if blk * S.C.NR + jj < S.nChunk ∧ d < S.kChunk then
      S.C.memOp (rhsAddr S.C.A (S.depthOuter + d) (S.colOuter + (blk * S.C.NR + jj)))
    else 0
  else 0

/-- The memory a micro-kernel reads its R panel from: the packed buffer when
packing is enabled, the original matrix otherwise. -/
def SliceCtx.rhsRead {T : Type} [CommRing T] (S : SliceCtx T) : Mem T :=
  if S.C.doPackRhs then S.packedRhsBuf else S.C.memOp

/-- The R pointer passed to the micro-kernel of column mini-chunk `j`
(lines 375–382): `packed_rhs + j · packed_rhs_stride` when packed, else
`rhs + depth_outer · rhs_rs + (col_outer + col_inner) · rhs_cs`. -/
def SliceCtx.rhsBase {T : Type} (S : SliceCtx T) (j : ℕ) : ℤ :=
  if S.C.doPackRhs then ((j * S.C.packedRhsStride : ℕ) : ℤ)
  else S.C.A.rhs + (S.depthOuter : ℤ) * S.C.A.rhs_rs +
    ((S.colOuter + S.C.NR * j : ℕ) : ℤ) * S.C.A.rhs_cs

/-- Modelled from the spec: the contents of a thread's packed-L buffer after
`pack_operands::pack_lhs` (§4.3) copies the `m_chunk × k_chunk` band starting at
`row_outer`.  Block `blk` starts at offset `blk · packed_lhs_stride`; within a
block the element for band-local row `rr` and depth `d` sits at offset
`d · MR + rr` (row stride 1, column stride MR).  The per-thread base offset
`tid · packed_lhs_stride · min(mc / MR, ⌈m / MR⌉)` (line 288) only separates the
threads' disjoint scratch slices and is dropped from this value-level model. -/
def SliceCtx.packedLhsBuf {T : Type} [CommRing T] (S : SliceCtx T)
    (rowOuter mChunk : ℕ) : Mem T := fun a =>
  if 0 ≤ a then
    let off := a.toNat
    let blk := off / S.C.packedLhsStride
    let r := off % S.C.packedLhsStride
    let d := r / S.C.MR
    let rr := r % S.C.MR
    if blk * S.C.MR + rr < mChunk ∧ d < S.kChunk then
      S.C.memOp (lhsAddr S.C.A (rowOuter + (blk * S.C.MR + rr)) (S.depthOuter + d))
    else 0
  else 0

/-- The memory a micro-kernel reads its L panel from. -/
def SliceCtx.lhsRead {T : Type} [CommRing T] (S : SliceCtx T)
    (rowOuter mChunk : ℕ) : Mem T :=
  if S.C.doPackLhs mChunk then S.packedLhsBuf rowOuter mChunk else S.C.memOp

/-- The L pointer passed to the micro-kernel of row mini-chunk `i`
(lines 367–374): `packed_lhs + i · packed_lhs_stride` when packed, else
`lhs + (row_outer + row_inner) · lhs_rs + depth_outer · lhs_cs`. -/
def SliceCtx.lhsBase {T : Type} (S : SliceCtx T) (rowOuter mChunk i : ℕ) : ℤ :=
  if S.C.doPackLhs mChunk then ((i * S.C.packedLhsStride : ℕ) : ℤ)
  else S.C.A.lhs + ((rowOuter + S.C.MR * i : ℕ) : ℤ) * S.C.A.lhs_rs +
    (S.depthOuter : ℤ) * S.C.A.lhs_cs

/-- Modelled from the spec: the destination writes of one micro-kernel call
(§6 contract).  Under the active α-mode the kernel updates
`dst[il, jl] ← α·dst[il, jl] + β·Σ_p lhs[il, p]·rhs[p, jl]` over `kChunk` depth,
reading L with row stride 1 and column stride `lhsCs`, and R with row stride
`rhsRs` and column stride `rhsCs`; the zero-mode table does not read the
destination.  All entries of one dispatch table share this contract, so the
table lookup `[(m_tile + N - 1)/N - 1][n_tile - 1]` (line 360) selects between
behaviourally equal kernels and is not reflected at the value level. -/
def kernelCells {T : Type} [CommRing T] (mode : AlphaMode) (alphaCur beta : T)
    (kChunk : ℕ) (dstA dstRs dstCs : ℤ) (lhsRead : Mem T) (lhsA lhsCs : ℤ)
    (rhsRead : Mem T) (rhsA rhsRs rhsCs : ℤ) (mTile nTile : ℕ) : List (Cell T) :=
  (List.range nTile).flatMap fun (jl : ℕ) => (List.range mTile).map fun (il : ℕ) =>
    (dstA + (il : ℤ) * dstRs + (jl : ℤ) * dstCs,
     fun d =>
       let acc := ∑ p ∈ Finset.range kChunk,
         lhsRead (lhsA + (il : ℤ) + (p : ℤ) * lhsCs) *
           rhsRead (rhsA + (p : ℤ) * rhsRs + (jl : ℤ) * rhsCs)
       match mode with
       | .zero => beta * acc
       | .one => d + beta * acc
       | .general => alphaCur * d + beta * acc)

/-- The destination writes of the (j, i) tile of a row band (lines 341–390). -/
def SliceCtx.tileCells {T : Type} [CommRing T] [DecidableEq T] (S : SliceCtx T)
    (rowOuter mChunk j i : ℕ) : List (Cell T) :=
  let colInner := S.C.NR * j
  let nTile := min S.C.NR (S.nChunk - colInner)
  let rowInner := S.C.MR * i
  let mTile := min S.C.MR (mChunk - rowInner)
  kernelCells S.mode S.alphaCur S.C.A.beta S.kChunk
    (S.C.A.dst + ((rowOuter + rowInner : ℕ) : ℤ) * S.C.A.dst_rs +
      ((S.colOuter + colInner : ℕ) : ℤ) * S.C.A.dst_cs)
    S.C.A.dst_rs S.C.A.dst_cs
    (S.lhsRead rowOuter mChunk) (S.lhsBase rowOuter mChunk i) (S.C.packedLhsCs mChunk)
    S.rhsRead (S.rhsBase j) S.C.packedRhsRs S.C.packedRhsCs
    mTile nTile

/-- The tile loops of one row band with the running `job_id` counter
(lines 337–394): a tile executes exactly when its job id lies in
`[job_start, job_end)`; `job_id` advances on every tile. -/
def SliceCtx.bandTileCells {T : Type} [CommRing T] [DecidableEq T] (S : SliceCtx T)
    (rowOuter mChunk jobBase s e : ℕ) : List (Cell T) :=
  ((jiList S.nColMini (nRowMiniOf S.C.MR mChunk)).foldl
    (fun st ji =>
      if st.1 < s ∨ e ≤ st.1 then (st.1 + 1, st.2)
      else (st.1 + 1, st.2 ++ S.tileCells rowOuter mChunk ji.1 ji.2))
    (jobBase, ([] : List (Cell T)))).2

/-- The band loop of one thread's closure `func` (lines 303–397): early return
once `job_id ≥ job_end`, skip a band whose jobs all precede `job_start`,
otherwise (after the value-neutral `pack_lhs` of the band when enabled) run the
band's tile loops.  `pack_lhs` writes only the thread's scratch slice, never the
destination, so it contributes no cells. -/
def SliceCtx.bandsCells {T : Type} [CommRing T] [DecidableEq T] (S : SliceCtx T)
    (s e : ℕ) : List (ℕ × ℕ) → ℕ → List (Cell T)
  | [], _ => []
  | (rowOuter, mChunk) :: rest, jobId =>
    let nMini := S.nColMini * nRowMiniOf S.C.MR mChunk
    if e ≤ jobId then []
    else if jobId + nMini < s then S.bandsCells s e rest (jobId + nMini)
    else S.bandTileCells rowOuter mChunk jobId s e ++ S.bandsCells s e rest (jobId + nMini)

/-- `n_jobs` (lines 270–277): total number of MR×NR tile jobs of this slice. -/
def SliceCtx.nJobs {T : Type} (S : SliceCtx T) : ℕ :=
  S.C.bands.foldl (fun acc bd => acc + S.nColMini * nRowMiniOf S.C.MR bd.2) 0

/-- Per-slice small-workload thread suppression (lines 279–284). -/
def SliceCtx.nThreads {T : Type} (S : SliceCtx T) : ℕ :=
  if S.C.A.m * S.nChunk * S.kChunk ≤ 48 * 48 * 256 then 1 else S.C.nThreadsTop

/-- The destination writes of thread `tid` during this slice. -/
def SliceCtx.funcCells {T : Type} [CommRing T] [DecidableEq T] (S : SliceCtx T)
    (tid : ℕ) : List (Cell T) :=
  let se := jobRange S.nJobs S.nThreads tid
  S.bandsCells se.1 se.2 S.C.bands 0

/-- The destination writes of the whole slice.  The parallel dispatch
(lines 400–405) fans the thread closures out over disjoint job ranges and joins;
its memory effect is modelled as the threads run in `tid` order. -/
def SliceCtx.cells {T : Type} [CommRing T] [DecidableEq T] (S : SliceCtx T) :
    List (Cell T) :=
  (List.range S.nThreads).flatMap S.funcCells

/-- The depth loop of one column panel (lines 242–408), threading the logical α:
the first slice uses the incoming α, every later slice uses 1 (`alpha = T::one()`
at line 406 runs after each slice).  Returns the writes and the slice trace. -/
def depthGo {T : Type} [CommRing T] [DecidableEq T] (C : DriverCtx T)
    (colOuter nChunk : ℕ) :
    List (ℕ × ℕ) → T → ℕ → List (Cell T) × List (SliceInfo T)
  | [], _, _ => ([], [])
  | (depthOuter, kChunk) :: rest, aCur, idx =>
    let S : SliceCtx T := ⟨C, colOuter, nChunk, depthOuter, kChunk, aCur⟩
    let tailRes := depthGo C colOuter nChunk rest 1 (idx + 1)
    (S.cells ++ tailRes.1, ⟨colOuter, depthOuter, idx, aCur, modeOf aCur⟩ :: tailRes.2)

/-- The blocked driver's destination writes and slice trace (lines 233–410):
α is forced to zero up front when `read_dst` is false; each column panel then
runs its depth loop starting from that α. -/
def driverCellsTrace {T : Type} [CommRing T] [DecidableEq T] (C : DriverCtx T) :
    List (Cell T) × List (SliceInfo T) :=
  let a0 : T := if C.A.read_dst then C.A.alpha else 0
  ((chunksFrom C.nc C.A.n).map fun p =>
      depthGo C p.1 p.2 (chunksFrom C.kc C.A.k) a0 0).foldr
    (fun x acc => (x.1 ++ acc.1, x.2 ++ acc.2)) ([], [])

/-- `gemm_basic_generic` (lines 28–411) as a cell-update list plus driver trace:
early return on an empty output, pre-normalisation, the `k = 0`, `k = 1` and
gemv degenerate branches, else the blocked driver with the oracle's block sizes
and the top-level small-workload thread suppression (line 202). -/
def gemm_basic_generic_cells {T : Type} [CommRing T] [DecidableEq T]
    (mulAdd : T → T → T → T) (kpf : ℕ → ℕ → ℕ → ℕ → ℕ → ℕ → KParams)
    (N MR NR simdStride sizeofT nThreads : ℕ) (memOp : Mem T) (A : GArgs T) :
    List (Cell T) × List (SliceInfo T) :=
  if A.m = 0 ∨ A.n = 0 then ([], [])
  else
    let B := normalize A
    if B.k = 0 then (zeroDstCells B, [])
    else if B.k = 1 then (kOneCells mulAdd memOp B, [])
    else if B.n ≤ 4 ∧ B.lhs_rs.natAbs ≤ B.lhs_cs.natAbs then (gemvCells memOp B, [])
    else
      let kp := kpf B.m B.n B.k MR NR sizeofT
      let nT0 := if B.m * kp.nc * kp.kc ≤ 48 * 48 * 256 then 1 else nThreads
      driverCellsTrace ⟨B, N, MR, NR, kp.kc, kp.mc, kp.nc, simdStride, nT0, memOp⟩

/-- Run `gemm_basic_generic` on a destination memory. -/
def gemm_basic_generic_run {T : Type} [CommRing T] [DecidableEq T]
    (mulAdd : T → T → T → T) (kpf : ℕ → ℕ → ℕ → ℕ → ℕ → ℕ → KParams)
    (N MR NR simdStride sizeofT nThreads : ℕ) (memOp : Mem T) (A : GArgs T)
    (memD : Mem T) : Mem T :=
  applyCells memD
    (gemm_basic_generic_cells mulAdd kpf N MR NR simdStride sizeofT nThreads memOp A).1

/-- The whole-problem transpose of the `gemm_basic` wrapper (lines 521–532),
taken when `dst_cs < dst_rs`: swap (m, n), the destination strides, and the
roles and strides of L and R. -/
def transposeArgs {T : Type} (A : GArgs T) : GArgs T :=
  { A with
    m := A.n
    n := A.m
    dst_cs := A.dst_rs
    dst_rs := A.dst_cs
    lhs := A.rhs
    lhs_cs := A.rhs_rs
    lhs_rs := A.rhs_cs
    rhs := A.lhs
    rhs_cs := A.lhs_rs
    rhs_rs := A.lhs_cs }

/-- The per-type `gemm_basic` wrapper (lines 502–533): transpose the problem
when the output is row-major-ish, then run the generic driver. -/
def gemm_basic_run {T : Type} [CommRing T] [DecidableEq T]
    (mulAdd : T → T → T → T) (kpf : ℕ → ℕ → ℕ → ℕ → ℕ → ℕ → KParams)
    (N MR NR simdStride sizeofT nThreads : ℕ) (memOp : Mem T) (A : GArgs T)
    (memD : Mem T) : Mem T :=
  if A.dst_cs < A.dst_rs then
    gemm_basic_generic_run mulAdd kpf N MR NR simdStride sizeofT nThreads memOp
      (transposeArgs A) memD
  else
    gemm_basic_generic_run mulAdd kpf N MR NR simdStride sizeofT nThreads memOp A memD

/-- Iteration shape of a loop nest: a leaf per element, with each level either a
sequential loop or a rayon parallel iterator. -/
inductive Sh where
  | leaf : Sh
  | seqs : List Sh → Sh
  | pars : List Sh → Sh

/-- Whether a shape node is a parallel iterator. -/
def shIsPar : Sh → Bool
  | .pars _ => true
  | _ => false

/-- A loop nest parallelises only at its outermost level when no node directly
below the root is itself a parallel iterator (for the two-level nests of
`gemm_fallback` this captures "threads only over the outer axis"). -/
def onlyOuterPar : Sh → Bool
  | .leaf => true
  | .seqs l => l.all fun t => !shIsPar t
  | .pars l => l.all fun t => !shIsPar t

/-- The loop-nest shape of `gemm_fallback` (lines 1057–1110): with one thread, a
sequential row loop over sequential column loops; otherwise rayon parallel
iterators over rows and, inside each row, over columns. -/
def fallbackShape (m n nThreads : ℕ) : Sh :=
  if nThreads = 1 then
    .seqs ((List.range m).map fun _ => .seqs ((List.range n).map fun _ => .leaf))
  else
    .pars ((List.range m).map fun _ => .pars ((List.range n).map fun _ => .leaf))

/-- The destination writes of `gemm_fallback` (lines 1057–1110): for each
(row, col), `β·(Σ_d L[row,d]·R[d,col])`, plus `α·D[row,col]` when `read_dst`.
Rows outer, columns inner; in the multi-threaded branch the writes go to
pairwise distinct destination elements, so running them in this order is the
parallel dispatch's memory effect. -/
def fallbackCells {T : Type} [CommRing T] (memOp : Mem T) (A : GArgs T) :
    List (Cell T) :=
  (List.range A.m).flatMap fun row => (List.range A.n).map fun (col : ℕ) =>
    (dstAddr A row col,
     fun d =>
       let acc := (∑ depth ∈ Finset.range A.k,
         memOp (lhsAddr A row depth) * memOp (rhsAddr A depth col)) * A.beta
       if A.read_dst then acc + A.alpha * d else acc)

/-- Run `gemm_fallback`.  The `scratch` argument mirrors the `stack: DynStack`
parameter, which the source immediately discards (`let _stack = stack;` at line
1051): the result does not depend on it. -/
def gemm_fallback_run {T : Type} [CommRing T] (memOp : Mem T) (A : GArgs T)
    (scratch : Mem T) (memD : Mem T) : Mem T :=
  let _scratch := scratch
  applyCells memD (fallbackCells memOp A)

/-- The public `gemm` entry point (lines 956–1025): route `f32`/`f64` (the
`supported` flag stands for the `TypeId` tests) to the per-type blocked engine,
every other element type to the triple-loop fallback. -/
def gemm_run {T : Type} [CommRing T] [DecidableEq T] (supported : Bool)
    (mulAdd : T → T → T → T) (kpf : ℕ → ℕ → ℕ → ℕ → ℕ → ℕ → KParams)
    (N MR NR simdStride sizeofT nThreads : ℕ) (memOp : Mem T) (A : GArgs T)
    (scratch : Mem T) (memD : Mem T) : Mem T :=
  if supported then
    gemm_basic_run mulAdd kpf N MR NR simdStride sizeofT nThreads memOp A memD
  else
    gemm_fallback_run memOp A scratch memD

/-- Modelled from the spec: the `usize` capacity bound of the platform word used
by `dyn_stack::StackReq`'s checked size arithmetic (§7). -/
def usizeMax : ℕ := 2 ^ 64 - 1

/-- Modelled from the spec: `StackReq::try_new_aligned::<T>(count, align)` —
`count` elements of `sizeofT` bytes, or `Overflow` (here `none`) when the byte
count exceeds the platform word. -/
def tryNewAligned (sizeofT count : ℕ) : Option ℕ :=
  if count * sizeofT ≤ usizeMax then some (count * sizeofT) else none

/-- Round `x` up to a multiple of `a`. -/
def alignUp (x a : ℕ) : ℕ := div_ceil x a * a

/-- Modelled from the spec: `StackReq::try_and` — lay one cache-line-aligned
requirement after another (§4.6: each block start aligned to cache-line
granularity, here 64 bytes), or `Overflow` when the sum exceeds the platform
word. -/
def tryAnd (r1 r2 : ℕ) : Option ℕ :=
  if alignUp r1 64 + r2 ≤ usizeMax then some (alignUp r1 64 + r2) else none

/-- `gemm_basic_req_generic` (lines 414–431): the scratch requirement of one
orientation — the shared packed-R buffer followed by the per-thread packed-L
buffers, sized from the oracle's block triple. -/
def gemm_basic_req_generic (kpf : ℕ → ℕ → ℕ → ℕ → ℕ → ℕ → KParams)
    (mr nr sizeofT m n k maxNThreads : ℕ) : Option ℕ :=
  let kp := kpf m n k mr nr sizeofT
  let simdStride := 64 / sizeofT
  let packedRhsStride := div_ceil (kp.kc * nr) simdStride * simdStride
  let packedLhsStride := div_ceil (kp.kc * mr) simdStride * simdStride
  match tryNewAligned sizeofT (packedRhsStride * (kp.nc / nr)) with
  | none => none
  | some r1 =>
    match tryNewAligned sizeofT (maxNThreads * packedLhsStride * (kp.mc / mr)) with
    | none => none
    | some r2 => tryAnd r1 r2

/-- The public `gemm_req` wrapper (lines 489–499): evaluate the per-ISA
requirement at the transposed orientation `(n, m, k)` and the original
orientation `(m, n, k)` — both must fit, as the `?` operator propagates either
overflow — and combine with `StackReq::try_any_of`, whose result is the larger
requirement. -/
def gemm_req (kpf : ℕ → ℕ → ℕ → ℕ → ℕ → ℕ → KParams)
    (mr nr sizeofT m n k maxNThreads : ℕ) : Option ℕ :=
  match gemm_basic_req_generic kpf mr nr sizeofT n m k maxNThreads with
  | none => none
  | some a =>
    match gemm_basic_req_generic kpf mr nr sizeofT m n k maxNThreads with
    | none => none
    | some b => some (max a b)

/-- The per-band tile-job count `n_col_mini_chunks · n_row_mini_chunks` of one
row band. -/
def SliceCtx.bandJobs {T : Type} (S : SliceCtx T) (bd : ℕ × ℕ) : ℕ :=
  S.nColMini * nRowMiniOf S.C.MR bd.2

/-- Total tile-job count of a list of row bands. -/
def sumJobs {T : Type} (S : SliceCtx T) (l : List (ℕ × ℕ)) : ℕ :=
  (l.map S.bandJobs).sum

/-- The tile jobs of one row band in job-id order. -/
def SliceCtx.bandTiles {T : Type} (S : SliceCtx T) (bd : ℕ × ℕ) :
    List (ℕ × ℕ × ℕ × ℕ) :=
  (jiList S.nColMini (nRowMiniOf S.C.MR bd.2)).map fun ji => (bd.1, bd.2, ji.1, ji.2)

/-- The tile loops of one band, written as a recursion over the (j, i) grid with
the running job id made explicit; equal to the `foldl` in
`SliceCtx.bandTileCells` and used to characterise which tiles execute. -/
def tileFilterGo {T : Type} [CommRing T] [DecidableEq T] (S : SliceCtx T)
    (rowOuter mChunk s e : ℕ) : List (ℕ × ℕ) → ℕ → List (Cell T)
  | [], _ => []
  | ji :: rest, b =>
    (if b < s ∨ e ≤ b then [] else S.tileCells rowOuter mChunk ji.1 ji.2) ++
      tileFilterGo S rowOuter mChunk s e rest (b + 1)

/-- The slice's MR×NR tile jobs `(row_outer, m_chunk, j, i)` in job-id order:
bands in row order, within a band the column mini-chunk outer and the row
mini-chunk inner, exactly the order in which the tile loops advance `job_id`. -/
def SliceCtx.allTiles {T : Type} (S : SliceCtx T) : List (ℕ × ℕ × ℕ × ℕ) :=
  S.C.bands.flatMap S.bandTiles

/-- The destination writes of one tile-job record. -/
def SliceCtx.tileCellsOf {T : Type} [CommRing T] [DecidableEq T] (S : SliceCtx T)
    (t : ℕ × ℕ × ℕ × ℕ) : List (Cell T) :=
  S.tileCells t.1 t.2.1 t.2.2.1 t.2.2.2

/-- Whether destination element (row `r`, panel-relative column `c`) lies in the
output region of a tile job. -/
def SliceCtx.tileContains {T : Type} (S : SliceCtx T) (t : ℕ × ℕ × ℕ × ℕ)
    (r c : ℕ) : Prop :=
  t.1 + S.C.MR * t.2.2.2 ≤ r ∧
    r < t.1 + S.C.MR * t.2.2.2 + min S.C.MR (t.2.1 - S.C.MR * t.2.2.2) ∧
    S.C.NR * t.2.2.1 ≤ c ∧
    c < S.C.NR * t.2.2.1 + min S.C.NR (S.nChunk - S.C.NR * t.2.2.1)

/-- Membership of job `ℓ` in the range of thread `tid`. -/
def jobIn (nJobs nThreads tid ℓ : ℕ) : Prop :=
  (jobRange nJobs nThreads tid).1 ≤ ℓ ∧ ℓ < (jobRange nJobs nThreads tid).2

/-- A block-size oracle returning a fixed triple, used to instantiate theorems
at concrete inputs. -/
def kpfConst (p : KParams) : ℕ → ℕ → ℕ → ℕ → ℕ → ℕ → KParams :=
  fun _ _ _ _ _ _ => p

/-- Scenario S1 of the specification: m = n = k = 1, unit strides, `read_dst`,
α = 4, β = 7, with L = [2], R = [3], D = [5] laid at address 0 of their
respective memories. -/
def exS1 : GArgs ℤ :=
  { m := 1, n := 1, k := 1, dst := 0, dst_cs := 1, dst_rs := 1, read_dst := true,
    lhs := 0, lhs_cs := 1, lhs_rs := 1, rhs := 100, rhs_cs := 1, rhs_rs := 1,
    alpha := 4, beta := 7 }

/-- Operand memory for scenario S1: L = [2] at address 0, R = [3] at address 100. -/
def exS1op : Mem ℤ := fun a => if a < 100 then 2 else 3

/-- A concrete driver-path input: 5×5×2, column-major D and L, `read_dst`
false with caller α = 5; reaches the blocked driver (no degenerate branch
fires) with two depth slices per column panel when kc = 1. -/
def exDrv : GArgs ℤ :=
  { m := 5, n := 5, k := 2, dst := 0, dst_cs := 5, dst_rs := 1, read_dst := false,
    lhs := 0, lhs_cs := 5, lhs_rs := 1, rhs := 0, rhs_cs := 2, rhs_rs := 31,
    alpha := 5, beta := 1 }

/-- A concrete input whose destination has a negative row stride (m = 2), with
R laid out so that the gevm transpose does not fire. -/
def exNeg : GArgs ℤ :=
  { m := 2, n := 1, k := 1, dst := 0, dst_cs := 10, dst_rs := -1, read_dst := true,
    lhs := 0, lhs_cs := 7, lhs_rs := -3, rhs := 0, rhs_cs := 5, rhs_rs := 1,
    alpha := 1, beta := 1 }

end GemmModel

namespace GemmModel

theorem applyCells_nil {T : Type} (mem : Mem T) : applyCells mem [] = mem := rfl

theorem applyCells_cons {T : Type} (mem : Mem T) (c : Cell T) (cs : List (Cell T)) :
    applyCells mem (c :: cs) = applyCells (Function.update mem c.1 (c.2 (mem c.1))) cs := rfl

theorem applyCells_append {T : Type} (mem : Mem T) (l1 l2 : List (Cell T)) :
    applyCells mem (l1 ++ l2) = applyCells (applyCells mem l1) l2 := by
  simp [applyCells, List.foldl_append]

theorem applyCells_not_mem {T : Type} (mem : Mem T) (cells : List (Cell T)) (a : ℤ)
    (h : ∀ c ∈ cells, c.1 ≠ a) : applyCells mem cells a = mem a := by
  induction cells generalizing mem with
  | nil => rfl
  | cons c cs ih =>
    rw [applyCells_cons, ih _ (fun c' hc' => h c' (List.mem_cons_of_mem _ hc'))]
    exact Function.update_noteq (Ne.symm (h c (List.mem_cons_self c cs))) _ _

theorem applyCells_eq_of_mem {T : Type} (mem : Mem T) (cells : List (Cell T)) (a : ℤ)
    (g : T → T) (hnd : (cells.map Prod.fst).Nodup) (hm : (a, g) ∈ cells) :
    applyCells mem cells a = g (mem a) := by
  induction cells generalizing mem with
  | nil => cases hm
  | cons c cs ih =>
    rw [applyCells_cons]
    rcases List.mem_cons.mp hm with h | h
    · have ha : c.1 = a := by rw [← h]
      have hnotin : ∀ c' ∈ cs, c'.1 ≠ a := by
        intro c' hc' he
        have hmem : c.1 ∈ cs.map Prod.fst := by
          rw [ha, ← he]; exact List.mem_map_of_mem Prod.fst hc'
        exact (List.nodup_cons.mp hnd).1 hmem
      rw [applyCells_not_mem _ _ _ hnotin]
      subst ha
      rw [Function.update_same]
      have h2 : c.2 = g := by rw [← h]
      rw [h2]
    · have ha : a ≠ c.1 := by
        intro he
        have hmem : c.1 ∈ cs.map Prod.fst := by
          rw [← he]
          exact List.mem_map_of_mem Prod.fst h
        exact (List.nodup_cons.mp hnd).1 hmem
      rw [ih (Function.update mem c.1 (c.2 (mem c.1))) (List.nodup_cons.mp hnd).2 h,
        Function.update_noteq ha]

theorem applyCells_agree_at {T : Type} (cells : List (Cell T)) (a : ℤ)
    (m1 m2 : Mem T) (h : m1 a = m2 a) : applyCells m1 cells a = applyCells m2 cells a := by
  induction cells generalizing m1 m2 with
  | nil => exact h
  | cons c cs ih =>
    rw [applyCells_cons, applyCells_cons]
    apply ih
    by_cases hc : a = c.1
    · subst hc; rw [Function.update_same, Function.update_same, h]
    · rw [Function.update_noteq hc, Function.update_noteq hc]
      exact h

theorem applyCells_agree_of_const {T : Type} (cells : List (Cell T)) (a : ℤ)
    (m1 m2 : Mem T) (h : ∃ g, (a, g) ∈ cells ∧ ∀ v w, g v = g w) :
    applyCells m1 cells a = applyCells m2 cells a := by
  induction cells generalizing m1 m2 with
  | nil => rcases h with ⟨g, hg, _⟩; cases hg
  | cons c cs ih =>
    rcases h with ⟨g, hg, hconst⟩
    rcases List.mem_cons.mp hg with hh | hh
    · rw [applyCells_cons, applyCells_cons]
      apply applyCells_agree_at
      have ha : c.1 = a := by rw [← hh]
      subst ha
      rw [Function.update_same, Function.update_same]
      have h2 : c.2 = g := by rw [← hh]
      rw [h2]; exact hconst _ _
    · exact ih _ _ ⟨g, hh, hconst⟩

theorem mem_gridPairs {m n : ℕ} {p : ℕ × ℕ} : p ∈ gridPairs m n ↔ p.1 < m ∧ p.2 < n := by
  cases p with | mk r c =>
  simp only [gridPairs, List.mem_flatMap, List.mem_map, List.mem_range, Prod.mk.injEq]
  constructor
  · rintro ⟨col, hcol, row, hrow, h1, h2⟩
    subst h1; subst h2; exact ⟨hrow, hcol⟩
  · rintro ⟨h1, h2⟩
    exact ⟨c, h2, r, h1, rfl, rfl⟩

theorem gridPairs_nodup (m n : ℕ) : (gridPairs m n).Nodup := by
  apply List.nodup_flatMap.2
  constructor
  · intro col _
    exact List.Nodup.map (fun a b hab => by simpa using hab) (List.nodup_range m)
  · apply List.Pairwise.imp ?_ (List.pairwise_lt_range n)
    intro a b hab x hx hy
    simp only [List.mem_map] at hx hy
    rcases hx with ⟨r1, _, h1⟩
    rcases hy with ⟨r2, _, h2⟩
    rw [← h1] at h2
    have hba : a = b := (Prod.mk.injEq _ _ _ _ |>.mp h2.symm).2
    exact absurd hba (Nat.ne_of_lt hab)

theorem normRs_m {T : Type} (A : GArgs T) : (normRs A).m = A.m := by
  unfold normRs; split_ifs <;> rfl

theorem normRs_n {T : Type} (A : GArgs T) : (normRs A).n = A.n := by
  unfold normRs; split_ifs <;> rfl

theorem normRs_k {T : Type} (A : GArgs T) : (normRs A).k = A.k := by
  unfold normRs; split_ifs <;> rfl

theorem normRs_dst_cs {T : Type} (A : GArgs T) : (normRs A).dst_cs = A.dst_cs := by
  unfold normRs; split_ifs <;> rfl

theorem normRs_rhs_cs {T : Type} (A : GArgs T) : (normRs A).rhs_cs = A.rhs_cs := by
  unfold normRs; split_ifs <;> rfl

theorem normRs_rhs_rs {T : Type} (A : GArgs T) : (normRs A).rhs_rs = A.rhs_rs := by
  unfold normRs; split_ifs <;> rfl

theorem normRs_read {T : Type} (A : GArgs T) : (normRs A).read_dst = A.read_dst := by
  unfold normRs; split_ifs <;> rfl

theorem normRs_alpha {T : Type} (A : GArgs T) : (normRs A).alpha = A.alpha := by
  unfold normRs; split_ifs <;> rfl

theorem normRs_beta {T : Type} (A : GArgs T) : (normRs A).beta = A.beta := by
  unfold normRs; split_ifs <;> rfl

theorem normCs_m {T : Type} (A : GArgs T) : (normCs A).m = A.m := by
  unfold normCs; split_ifs <;> rfl

theorem normCs_n {T : Type} (A : GArgs T) : (normCs A).n = A.n := by
  unfold normCs; split_ifs <;> rfl

theorem normCs_k {T : Type} (A : GArgs T) : (normCs A).k = A.k := by
  unfold normCs; split_ifs <;> rfl

theorem normCs_dst_rs {T : Type} (A : GArgs T) : (normCs A).dst_rs = A.dst_rs := by
  unfold normCs; split_ifs <;> rfl

theorem normCs_rhs_rs {T : Type} (A : GArgs T) : (normCs A).rhs_rs = A.rhs_rs := by
  unfold normCs; split_ifs <;> rfl

theorem normCs_rhs_cs_natAbs {T : Type} (A : GArgs T) :
    (normCs A).rhs_cs.natAbs = A.rhs_cs.natAbs := by
  unfold normCs; split_ifs <;> simp [Int.natAbs_neg]

theorem normCs_read {T : Type} (A : GArgs T) : (normCs A).read_dst = A.read_dst := by
  unfold normCs; split_ifs <;> rfl

theorem normCs_alpha {T : Type} (A : GArgs T) : (normCs A).alpha = A.alpha := by
  unfold normCs; split_ifs <;> rfl

theorem normCs_beta {T : Type} (A : GArgs T) : (normCs A).beta = A.beta := by
  unfold normCs; split_ifs <;> rfl

theorem normSwap_k {T : Type} (A : GArgs T) : (normSwap A).k = A.k := by
  unfold normSwap; split_ifs <;> rfl

theorem normSwap_read {T : Type} (A : GArgs T) : (normSwap A).read_dst = A.read_dst := by
  unfold normSwap; split_ifs <;> rfl

theorem normSwap_alpha {T : Type} (A : GArgs T) : (normSwap A).alpha = A.alpha := by
  unfold normSwap; split_ifs <;> rfl

theorem normSwap_beta {T : Type} (A : GArgs T) : (normSwap A).beta = A.beta := by
  unfold normSwap; split_ifs <;> rfl

theorem normRs_dstAddr {T : Type} (A : GArgs T) (i j : ℕ) (hi : i < A.m) :
    dstAddr (normRs A) i j = dstAddr A (rowMap A i) j := by
  unfold normRs rowMap dstAddr
  split_ifs with h
  · have e1 : ((A.m - 1 - i : ℕ) : ℤ) = (A.m : ℤ) - 1 - i := by omega
    have e2 : ((A.m - 1 : ℕ) : ℤ) = (A.m : ℤ) - 1 := by omega
    simp only [e1, e2]
    ring
  · rfl

theorem normRs_lhsAddr {T : Type} (A : GArgs T) (i d : ℕ) (hi : i < A.m) :
    lhsAddr (normRs A) i d = lhsAddr A (rowMap A i) d := by
  unfold normRs rowMap lhsAddr
  split_ifs with h
  · have e1 : ((A.m - 1 - i : ℕ) : ℤ) = (A.m : ℤ) - 1 - i := by omega
    have e2 : ((A.m - 1 : ℕ) : ℤ) = (A.m : ℤ) - 1 := by omega
    simp only [e1, e2]
    ring
  · rfl

theorem normRs_rhsAddr {T : Type} (A : GArgs T) (d j : ℕ) :
    rhsAddr (normRs A) d j = rhsAddr A d j := by
  unfold normRs rhsAddr; split_ifs <;> rfl

theorem normCs_dstAddr {T : Type} (A : GArgs T) (i j : ℕ) (hj : j < A.n) :
    dstAddr (normCs A) i j = dstAddr A i (colMap A j) := by
  unfold normCs colMap dstAddr
  split_ifs with h
  · have e1 : ((A.n - 1 - j : ℕ) : ℤ) = (A.n : ℤ) - 1 - j := by omega
    have e2 : ((A.n - 1 : ℕ) : ℤ) = (A.n : ℤ) - 1 := by omega
    simp only [e1, e2]
    ring
  · rfl

theorem normCs_rhsAddr {T : Type} (A : GArgs T) (d j : ℕ) (hj : j < A.n) :
    rhsAddr (normCs A) d j = rhsAddr A d (colMap A j) := by
  unfold normCs colMap rhsAddr
  split_ifs with h
  · have e1 : ((A.n - 1 - j : ℕ) : ℤ) = (A.n : ℤ) - 1 - j := by omega
    have e2 : ((A.n - 1 : ℕ) : ℤ) = (A.n : ℤ) - 1 := by omega
    simp only [e1, e2]
    ring
  · rfl

theorem normCs_lhsAddr {T : Type} (A : GArgs T) (i d : ℕ) :
    lhsAddr (normCs A) i d = lhsAddr A i d := by
  unfold normCs lhsAddr; split_ifs <;> rfl

theorem normSwap_pos {T : Type} (A : GArgs T)
    (hc : A.m ≤ 4 ∧ A.rhs_cs.natAbs ≤ A.rhs_rs.natAbs) :
    (normSwap A).m = A.n ∧ (normSwap A).n = A.m ∧
    (∀ i j : ℕ, dstAddr (normSwap A) i j = dstAddr A j i) ∧
    (∀ i d : ℕ, lhsAddr (normSwap A) i d = rhsAddr A d i) ∧
    (∀ d j : ℕ, rhsAddr (normSwap A) d j = lhsAddr A j d) := by
  unfold normSwap dstAddr lhsAddr rhsAddr
  rw [if_pos hc]
  refine ⟨rfl, rfl, fun i j => by ring, fun i d => by ring, fun d j => by ring⟩

theorem normSwap_neg {T : Type} (A : GArgs T)
    (hc : ¬(A.m ≤ 4 ∧ A.rhs_cs.natAbs ≤ A.rhs_rs.natAbs)) : normSwap A = A := by
  unfold normSwap
  rw [if_neg hc]

theorem swapCond_iff {T : Type} (A : GArgs T) :
    ((normCs (normRs A)).m ≤ 4 ∧
      (normCs (normRs A)).rhs_cs.natAbs ≤ (normCs (normRs A)).rhs_rs.natAbs) ↔
      gevmSwaps A := by
  rw [normCs_m, normRs_m, normCs_rhs_cs_natAbs, normRs_rhs_cs, normCs_rhs_rs, normRs_rhs_rs]
  rfl

theorem colMap_normRs {T : Type} (A : GArgs T) (j : ℕ) :
    colMap (normRs A) j = colMap A j := by
  unfold colMap
  rw [normRs_dst_cs, normRs_n]

theorem rowMap_normCs {T : Type} (A : GArgs T) (i : ℕ) :
    rowMap (normCs A) i = rowMap A i := by
  unfold rowMap
  rw [normCs_dst_rs, normCs_m]

theorem rowMap_lt {T : Type} (A : GArgs T) (i : ℕ) (hi : i < A.m) : rowMap A i < A.m := by
  unfold rowMap; split_ifs <;> omega

theorem colMap_lt {T : Type} (A : GArgs T) (j : ℕ) (hj : j < A.n) : colMap A j < A.n := by
  unfold colMap; split_ifs <;> omega

theorem rowMap_rowMap {T : Type} (A : GArgs T) (i : ℕ) (hi : i < A.m) :
    rowMap A (rowMap A i) = i := by
  unfold rowMap; split_ifs <;> omega

theorem colMap_colMap {T : Type} (A : GArgs T) (j : ℕ) (hj : j < A.n) :
    colMap A (colMap A j) = j := by
  unfold colMap; split_ifs <;> omega

theorem normalize_m {T : Type} (A : GArgs T) :
    (normalize A).m = if gevmSwaps A then A.n else A.m := by
  unfold normalize
  by_cases h : gevmSwaps A
  · rcases (normSwap_pos _ ((swapCond_iff A).mpr h)) with ⟨h1, _⟩
    rw [if_pos h, h1, normCs_n, normRs_n]
  · rw [normSwap_neg _ (fun hc => h ((swapCond_iff A).mp hc)), if_neg h, normCs_m, normRs_m]

theorem normalize_n {T : Type} (A : GArgs T) :
    (normalize A).n = if gevmSwaps A then A.m else A.n := by
  unfold normalize
  by_cases h : gevmSwaps A
  · rcases (normSwap_pos _ ((swapCond_iff A).mpr h)) with ⟨_, h2, _⟩
    rw [if_pos h, h2, normCs_m, normRs_m]
  · rw [normSwap_neg _ (fun hc => h ((swapCond_iff A).mp hc)), if_neg h, normCs_n, normRs_n]

theorem normalize_k {T : Type} (A : GArgs T) : (normalize A).k = A.k := by
  unfold normalize
  rw [normSwap_k, normCs_k, normRs_k]

theorem normalize_read {T : Type} (A : GArgs T) : (normalize A).read_dst = A.read_dst := by
  unfold normalize
  rw [normSwap_read, normCs_read, normRs_read]

theorem normalize_alpha {T : Type} (A : GArgs T) : (normalize A).alpha = A.alpha := by
  unfold normalize
  rw [normSwap_alpha, normCs_alpha, normRs_alpha]

theorem normalize_beta {T : Type} (A : GArgs T) : (normalize A).beta = A.beta := by
  unfold normalize
  rw [normSwap_beta, normCs_beta, normRs_beta]

theorem normalize_dstAddr {T : Type} (A : GArgs T) (i2 j2 : ℕ)
    (hi2 : i2 < (normalize A).m) (hj2 : j2 < (normalize A).n) :
    dstAddr (normalize A) i2 j2 = dstAddr A (origOf A (i2, j2)).1 (origOf A (i2, j2)).2 := by
  unfold normalize origOf
  rw [normalize_m] at hi2
  rw [normalize_n] at hj2
  by_cases h : gevmSwaps A
  · rw [if_pos h] at hi2 hj2 ⊢
    rcases (normSwap_pos _ ((swapCond_iff A).mpr h)) with ⟨_, _, hd, _⟩
    rw [hd i2 j2,
      normCs_dstAddr _ _ _ (by simpa [normCs_n, normRs_n] using hi2),
      normRs_dstAddr _ _ _ (by simpa [normRs_m] using hj2), colMap_normRs]
  · rw [if_neg h] at hi2 hj2 ⊢
    rw [normSwap_neg _ (fun hc => h ((swapCond_iff A).mp hc)),
      normCs_dstAddr _ _ _ (by simpa [normCs_n, normRs_n] using hj2),
      normRs_dstAddr _ _ _ (by simpa [normRs_m] using hi2), colMap_normRs]

theorem normalize_opAddrs {T : Type} (A : GArgs T) (i2 j2 d : ℕ)
    (hi2 : i2 < (normalize A).m) (hj2 : j2 < (normalize A).n) :
    (lhsAddr (normalize A) i2 d = lhsAddr A (origOf A (i2, j2)).1 d ∧
      rhsAddr (normalize A) d j2 = rhsAddr A d (origOf A (i2, j2)).2) ∨
    (lhsAddr (normalize A) i2 d = rhsAddr A d (origOf A (i2, j2)).2 ∧
      rhsAddr (normalize A) d j2 = lhsAddr A (origOf A (i2, j2)).1 d) := by
  unfold normalize origOf
  rw [normalize_m] at hi2
  rw [normalize_n] at hj2
  by_cases h : gevmSwaps A
  · rw [if_pos h] at hi2 hj2 ⊢
    rcases (normSwap_pos _ ((swapCond_iff A).mpr h)) with ⟨_, _, _, hl, hr⟩
    right
    constructor
    · rw [hl i2 d,
        normCs_rhsAddr _ _ _ (by simpa [normCs_n, normRs_n] using hi2),
        normRs_rhsAddr, colMap_normRs]
    · rw [hr d j2, normCs_lhsAddr,
        normRs_lhsAddr _ _ _ (by simpa [normRs_m] using hj2)]
  · rw [if_neg h] at hi2 hj2 ⊢
    rw [normSwap_neg _ (fun hc => h ((swapCond_iff A).mp hc))]
    left
    constructor
    · rw [normCs_lhsAddr, normRs_lhsAddr _ _ _ (by simpa [normRs_m] using hi2)]
    · rw [normCs_rhsAddr _ _ _ (by simpa [normCs_n, normRs_n] using hj2),
        normRs_rhsAddr, colMap_normRs]

theorem origOf_lt {T : Type} (A : GArgs T) (i2 j2 : ℕ)
    (hi2 : i2 < (normalize A).m) (hj2 : j2 < (normalize A).n) :
    (origOf A (i2, j2)).1 < A.m ∧ (origOf A (i2, j2)).2 < A.n := by
  unfold origOf
  rw [normalize_m] at hi2
  rw [normalize_n] at hj2
  by_cases h : gevmSwaps A
  · rw [if_pos h] at hi2 hj2 ⊢
    exact ⟨rowMap_lt _ _ hj2, colMap_lt _ _ hi2⟩
  · rw [if_neg h] at hi2 hj2 ⊢
    exact ⟨rowMap_lt _ _ hi2, colMap_lt _ _ hj2⟩

theorem invOf_lt_origOf {T : Type} (A : GArgs T) (i j : ℕ) (hi : i < A.m) (hj : j < A.n) :
    (invOf A (i, j)).1 < (normalize A).m ∧ (invOf A (i, j)).2 < (normalize A).n ∧
      origOf A (invOf A (i, j)) = (i, j) := by
  unfold invOf origOf
  rw [normalize_m, normalize_n]
  by_cases h : gevmSwaps A
  · simp only [if_pos h]
    exact ⟨colMap_lt _ _ hj, rowMap_lt _ _ hi,
      by rw [rowMap_rowMap _ _ hi, colMap_colMap _ _ hj]⟩
  · simp only [if_neg h]
    exact ⟨rowMap_lt _ _ hi, colMap_lt _ _ hj,
      by rw [rowMap_rowMap _ _ hi, colMap_colMap _ _ hj]⟩

theorem invOf_origOf {T : Type} (A : GArgs T) (p : ℕ × ℕ)
    (h1 : p.1 < (normalize A).m) (h2 : p.2 < (normalize A).n) :
    invOf A (origOf A p) = p := by
  unfold invOf origOf
  rw [normalize_m] at h1
  rw [normalize_n] at h2
  by_cases h : gevmSwaps A
  · simp only [if_pos h] at h1 h2 ⊢
    rw [colMap_colMap _ _ h1, rowMap_rowMap _ _ h2]
  · simp only [if_neg h] at h1 h2 ⊢
    rw [rowMap_rowMap _ _ h1, colMap_colMap _ _ h2]

theorem normalize_strides_nonneg {T : Type} (A : GArgs T) :
    0 ≤ (normalize A).dst_rs ∧ 0 ≤ (normalize A).dst_cs := by
  have h1 : 0 ≤ (normRs A).dst_rs := by
    unfold normRs; split_ifs with h
    · show 0 ≤ -A.dst_rs; omega
    · show 0 ≤ A.dst_rs; omega
  have h2 : 0 ≤ (normCs (normRs A)).dst_cs := by
    unfold normCs; split_ifs with h
    · show 0 ≤ -(normRs A).dst_cs; omega
    · show 0 ≤ (normRs A).dst_cs; omega
  have h3 : 0 ≤ (normCs (normRs A)).dst_rs := by rw [normCs_dst_rs]; exact h1
  unfold normalize normSwap
  split_ifs with h
  · exact ⟨h2, h3⟩
  · exact ⟨h3, h2⟩

/-- Claim C1 (counterexample): for the single-element problem of scenario S1
(m = n = k = 1, unit strides, L = [2], R = [3], D = [5], α = 4, β = 7,
`read_dst = true`), the engine does not leave D = [41]. -/
theorem c1_counterexample :
    ¬(gemm_basic_run (fun a b c => a * b + c) (kpfConst ⟨1, 2, 4⟩) 1 2 4 8 8 1
        exS1op exS1 (fun _ => 5) 0 = 41) := by
  decide

/-- Claim C1 (amended): for the single-element problem of scenario S1, gemm
leaves D = [41 → 62]: the k = 1 rank-1 branch computes
α·D + (β·R)·L = 4·5 + (7·3)·2 = 62, matching the contract D ← α·D + β·L·R. -/
theorem c1_thm :
    gemm_basic_run (fun a b c => a * b + c) (kpfConst ⟨1, 2, 4⟩) 1 2 4 8 8 1
      exS1op exS1 (fun _ => 5) 0 = 62 := by
  decide

/-- Claim C9 (counterexample): the pre-normalisation does not preserve which
memory address each (row, column) index pair denotes pointwise.  For m = 2,
`dst_rs = -1`, the fixed-up view's index (0, 0) denotes address -1 where the
original index (0, 0) denoted address 0 (the fix reverses the row order). -/
theorem c9_counterexample :
    (normalize exNeg).m = 2 ∧ (normalize exNeg).n = 1 ∧
      dstAddr (normalize exNeg) 0 0 ≠ dstAddr exNeg 0 0 := by
  refine ⟨by decide, by decide, by decide⟩

/-- Claim C9 (amended): after the driver's pre-normalisation the destination
strides satisfy `dst_rs ≥ 0` and `dst_cs ≥ 0`, and the base-pointer adjustments
preserve the address correspondence up to index relabelling: every
post-normalisation (row, column) pair of D denotes the address of some original
pair (i, j), with the L-row/R-column addresses of the transformed views being
exactly the original L-row-i and R-column-j addresses (their roles swapped when
the gevm transpose fired); conversely every original address is still denoted. -/
theorem c9_thm {T : Type} (A : GArgs T) :
    (0 ≤ (normalize A).dst_rs ∧ 0 ≤ (normalize A).dst_cs) ∧
    (∀ i2 < (normalize A).m, ∀ j2 < (normalize A).n,
      ∃ i < A.m, ∃ j < A.n,
        dstAddr (normalize A) i2 j2 = dstAddr A i j ∧
        ∀ d : ℕ,
          (lhsAddr (normalize A) i2 d = lhsAddr A i d ∧
            rhsAddr (normalize A) d j2 = rhsAddr A d j) ∨
          (lhsAddr (normalize A) i2 d = rhsAddr A d j ∧
            rhsAddr (normalize A) d j2 = lhsAddr A i d)) ∧
    (∀ i < A.m, ∀ j < A.n, ∃ i2 < (normalize A).m, ∃ j2 < (normalize A).n,
        dstAddr (normalize A) i2 j2 = dstAddr A i j) := by
  refine ⟨normalize_strides_nonneg A, ?_, ?_⟩
  · intro i2 hi2 j2 hj2
    rcases origOf_lt A i2 j2 hi2 hj2 with ⟨hio, hjo⟩
    exact ⟨(origOf A (i2, j2)).1, hio, (origOf A (i2, j2)).2, hjo,
      normalize_dstAddr A i2 j2 hi2 hj2, fun d => normalize_opAddrs A i2 j2 d hi2 hj2⟩
  · intro i hi j hj
    rcases invOf_lt_origOf A i j hi hj with ⟨h1, h2, h3⟩
    refine ⟨(invOf A (i, j)).1, h1, (invOf A (i, j)).2, h2, ?_⟩
    have := normalize_dstAddr A (invOf A (i, j)).1 (invOf A (i, j)).2 h1 h2
    rw [this]
    rw [show ((invOf A (i, j)).1, (invOf A (i, j)).2) = invOf A (i, j) from rfl, h3]

theorem dstAddr_grid_nodup {T : Type} (A : GArgs T)
    (hinj : ∀ i1 < A.m, ∀ j1 < A.n, ∀ i2 < A.m, ∀ j2 < A.n,
      dstAddr A i1 j1 = dstAddr A i2 j2 → i1 = i2 ∧ j1 = j2) :
    ((gridPairs A.m A.n).map fun p => dstAddr A p.1 p.2).Nodup := by
  apply List.Nodup.map_on ?_ (gridPairs_nodup _ _)
  intro p hp q hq he
  rcases mem_gridPairs.mp hp with ⟨hp1, hp2⟩
  rcases mem_gridPairs.mp hq with ⟨hq1, hq2⟩
  rcases hinj p.1 hp1 p.2 hp2 q.1 hq1 q.2 hq2 he with ⟨h1, h2⟩
  exact Prod.ext h1 h2

theorem normalize_inj {T : Type} (A : GArgs T)
    (hinj : ∀ i1 < A.m, ∀ j1 < A.n, ∀ i2 < A.m, ∀ j2 < A.n,
      dstAddr A i1 j1 = dstAddr A i2 j2 → i1 = i2 ∧ j1 = j2) :
    ∀ i1 < (normalize A).m, ∀ j1 < (normalize A).n,
      ∀ i2 < (normalize A).m, ∀ j2 < (normalize A).n,
        dstAddr (normalize A) i1 j1 = dstAddr (normalize A) i2 j2 → i1 = i2 ∧ j1 = j2 := by
  intro i1 h1 j1 h2 i2 h3 j2 h4 he
  rw [normalize_dstAddr A i1 j1 h1 h2, normalize_dstAddr A i2 j2 h3 h4] at he
  rcases origOf_lt A i1 j1 h1 h2 with ⟨ha1, ha2⟩
  rcases origOf_lt A i2 j2 h3 h4 with ⟨hb1, hb2⟩
  rcases hinj _ ha1 _ ha2 _ hb1 _ hb2 he with ⟨hc1, hc2⟩
  have : origOf A (i1, j1) = origOf A (i2, j2) := Prod.ext hc1 hc2
  have h5 := invOf_origOf A (i1, j1) h1 h2
  have h6 := invOf_origOf A (i2, j2) h3 h4
  rw [this] at h5
  rw [h6] at h5
  exact ⟨(congrArg Prod.fst h5).symm, (congrArg Prod.snd h5).symm⟩

/-- Claim C3: with k = 0 (and a destination view that is a genuine matrix
layout, its index-to-address map injective), the engine writes
D[i,j] ← α·D_in[i,j] for all i < m, j < n when `read_dst`, and D[i,j] ← 0
otherwise, and writes no other memory. -/
theorem c3_thm {T : Type} [CommRing T] [DecidableEq T] (mulAdd : T → T → T → T)
    (kpf : ℕ → ℕ → ℕ → ℕ → ℕ → ℕ → KParams) (N MR NR simdStride sizeofT nThreads : ℕ)
    (memOp memD : Mem T) (A : GArgs T) (hm : 0 < A.m) (hn : 0 < A.n) (hk : A.k = 0)
    (hinj : ∀ i1 < A.m, ∀ j1 < A.n, ∀ i2 < A.m, ∀ j2 < A.n,
      dstAddr A i1 j1 = dstAddr A i2 j2 → i1 = i2 ∧ j1 = j2) :
    (∀ i < A.m, ∀ j < A.n,
      gemm_basic_generic_run mulAdd kpf N MR NR simdStride sizeofT nThreads memOp A memD
          (dstAddr A i j) =
        if A.read_dst then A.alpha * memD (dstAddr A i j) else 0) ∧
    (∀ a : ℤ, (∀ i < A.m, ∀ j < A.n, a ≠ dstAddr A i j) →
      gemm_basic_generic_run mulAdd kpf N MR NR simdStride sizeofT nThreads memOp A memD
        a = memD a) := by
  have hcells :
      (gemm_basic_generic_cells mulAdd kpf N MR NR simdStride sizeofT nThreads memOp A).1 =
        zeroDstCells (normalize A) := by
    unfold gemm_basic_generic_cells
    rw [if_neg (by omega)]
    simp only
    rw [if_pos (by rw [normalize_k]; exact hk)]
  unfold gemm_basic_generic_run
  rw [hcells]
  constructor
  · intro i hi j hj
    rcases invOf_lt_origOf A i j hi hj with ⟨h1, h2, h3⟩
    have haddr : dstAddr (normalize A) (invOf A (i, j)).1 (invOf A (i, j)).2 = dstAddr A i j := by
      rw [normalize_dstAddr A _ _ h1 h2,
        show ((invOf A (i, j)).1, (invOf A (i, j)).2) = invOf A (i, j) from rfl, h3]
    have hmem :
        (dstAddr A i j,
          fun d => if (normalize A).read_dst then (normalize A).alpha * d else 0) ∈
          zeroDstCells (normalize A) := by
      unfold zeroDstCells
      refine List.mem_map.mpr ⟨((invOf A (i, j)).1, (invOf A (i, j)).2), mem_gridPairs.mpr ⟨h1, h2⟩, ?_⟩
      rw [haddr]
    have hnd : ((zeroDstCells (normalize A)).map Prod.fst).Nodup := by
      unfold zeroDstCells
      rw [List.map_map]
      exact dstAddr_grid_nodup (normalize A) (normalize_inj A hinj)
    rw [applyCells_eq_of_mem memD _ _ _ hnd hmem, normalize_read, normalize_alpha]
  · intro a ha
    apply applyCells_not_mem
    intro c hc
    unfold zeroDstCells at hc
    rcases List.mem_map.mp hc with ⟨p, hp, hpc⟩
    rcases mem_gridPairs.mp hp with ⟨hp1, hp2⟩
    rcases origOf_lt A p.1 p.2 hp1 hp2 with ⟨ho1, ho2⟩
    have : c.1 = dstAddr A (origOf A (p.1, p.2)).1 (origOf A (p.1, p.2)).2 := by
      rw [← hpc, ← normalize_dstAddr A p.1 p.2 hp1 hp2]
    rw [this]
    exact fun he => ha _ ho1 _ ho2 he.symm

/-- Claim C3 (witness): the k = 0 property at the concrete one-element problem
of scenario S1. -/
theorem c3_witness :
    (∀ i < ({ exS1 with k := 0 } : GArgs ℤ).m, ∀ j < ({ exS1 with k := 0 } : GArgs ℤ).n,
      gemm_basic_generic_run (fun a b c => a * b + c) (kpfConst ⟨1, 2, 4⟩) 1 2 4 8 8 1
          exS1op ({ exS1 with k := 0 }) (fun _ => 5)
          (dstAddr ({ exS1 with k := 0 } : GArgs ℤ) i j) =
        if ({ exS1 with k := 0 } : GArgs ℤ).read_dst then
          ({ exS1 with k := 0 } : GArgs ℤ).alpha *
            (fun _ => (5 : ℤ)) (dstAddr ({ exS1 with k := 0 } : GArgs ℤ) i j)
        else 0) ∧
    (∀ a : ℤ, (∀ i < ({ exS1 with k := 0 } : GArgs ℤ).m,
        ∀ j < ({ exS1 with k := 0 } : GArgs ℤ).n,
          a ≠ dstAddr ({ exS1 with k := 0 } : GArgs ℤ) i j) →
      gemm_basic_generic_run (fun a b c => a * b + c) (kpfConst ⟨1, 2, 4⟩) 1 2 4 8 8 1
        exS1op ({ exS1 with k := 0 }) (fun _ => 5) a = (fun _ => (5 : ℤ)) a) :=
  c3_thm (fun a b c => a * b + c) (kpfConst ⟨1, 2, 4⟩) 1 2 4 8 8 1 exS1op (fun _ => 5)
    ({ exS1 with k := 0 }) (by decide) (by decide) (by decide)
    (by
      intro i1 h1 j1 h2 i2 h3 j2 h4 _
      simp only [exS1] at h1 h2 h3 h4
      omega)

/-- Claim C4: the k = 1 rank-1 update (in post-canonicalisation coordinates)
sets D[i,j] to α·D_in[i,j] + L[i,0]·(β·R[0,j]) when `read_dst` and to
L[i,0]·(β·R[0,j]) otherwise, provided the fused multiply-add argument computes
a·b + c; moreover in the `read_dst`, α = 1 sub-case the written cell is
literally an application of the fused multiply-add. -/
theorem c4_thm {T : Type} [CommRing T] [DecidableEq T] (mulAdd : T → T → T → T)
    (memOp memD : Mem T) (A : GArgs T) (hm : 0 < A.m) (hn : 0 < A.n)
    (hinj : ∀ i1 < A.m, ∀ j1 < A.n, ∀ i2 < A.m, ∀ j2 < A.n,
      dstAddr A i1 j1 = dstAddr A i2 j2 → i1 = i2 ∧ j1 = j2)
    (hma : ∀ a b c : T, mulAdd a b c = a * b + c) :
    (∀ i < A.m, ∀ j < A.n,
      applyCells memD (kOneCells mulAdd memOp A) (dstAddr A i j) =
        if A.read_dst then
          A.alpha * memD (dstAddr A i j) +
            memOp (lhsAddr A i 0) * (A.beta * memOp (rhsAddr A 0 j))
        else memOp (lhsAddr A i 0) * (A.beta * memOp (rhsAddr A 0 j))) ∧
    (A.read_dst = true → A.alpha = 1 → ∀ i < A.m, ∀ j < A.n,
      (dstAddr A i j,
        fun d : T => mulAdd (memOp (A.lhs + (i : ℤ) * A.lhs_rs))
          (A.beta * memOp (A.rhs + (j : ℤ) * A.rhs_cs)) d) ∈
        kOneCells mulAdd memOp A) := by
  have hL : ∀ i : ℕ, lhsAddr A i 0 = A.lhs + (i : ℤ) * A.lhs_rs := by
    intro i; unfold lhsAddr; push_cast; ring
  have hR : ∀ j : ℕ, rhsAddr A 0 j = A.rhs + (j : ℤ) * A.rhs_cs := by
    intro j; unfold rhsAddr; push_cast; ring
  constructor
  · intro i hi j hj
    unfold kOneCells
    split_ifs with hr ha
    · have hnd : (((gridPairs A.m A.n).map fun p =>
          ((dstAddr A p.1 p.2 : ℤ),
            fun d : T => mulAdd (memOp (A.lhs + (p.1 : ℤ) * A.lhs_rs))
              (A.beta * memOp (A.rhs + (p.2 : ℤ) * A.rhs_cs)) d)).map Prod.fst).Nodup := by
        rw [List.map_map]
        exact dstAddr_grid_nodup A hinj
      have hmem : ((dstAddr A i j : ℤ),
          fun d : T => mulAdd (memOp (A.lhs + (i : ℤ) * A.lhs_rs))
            (A.beta * memOp (A.rhs + (j : ℤ) * A.rhs_cs)) d) ∈
            (gridPairs A.m A.n).map fun p =>
              ((dstAddr A p.1 p.2 : ℤ),
                fun d : T => mulAdd (memOp (A.lhs + (p.1 : ℤ) * A.lhs_rs))
                  (A.beta * memOp (A.rhs + (p.2 : ℤ) * A.rhs_cs)) d) :=
        List.mem_map.mpr ⟨(i, j), mem_gridPairs.mpr ⟨hi, hj⟩, rfl⟩
      rw [applyCells_eq_of_mem memD _ _ _ hnd hmem, hma, ha, hL, hR]
      ring
    · have hnd : (((gridPairs A.m A.n).map fun p =>
          ((dstAddr A p.1 p.2 : ℤ),
            fun d : T => A.alpha * d + memOp (A.lhs + (p.1 : ℤ) * A.lhs_rs) *
              (A.beta * memOp (A.rhs + (p.2 : ℤ) * A.rhs_cs)))).map Prod.fst).Nodup := by
        rw [List.map_map]
        exact dstAddr_grid_nodup A hinj
      have hmem : ((dstAddr A i j : ℤ),
          fun d : T => A.alpha * d + memOp (A.lhs + (i : ℤ) * A.lhs_rs) *
            (A.beta * memOp (A.rhs + (j : ℤ) * A.rhs_cs))) ∈
            (gridPairs A.m A.n).map fun p =>
              ((dstAddr A p.1 p.2 : ℤ),
                fun d : T => A.alpha * d + memOp (A.lhs + (p.1 : ℤ) * A.lhs_rs) *
                  (A.beta * memOp (A.rhs + (p.2 : ℤ) * A.rhs_cs))) :=
        List.mem_map.mpr ⟨(i, j), mem_gridPairs.mpr ⟨hi, hj⟩, rfl⟩
      rw [applyCells_eq_of_mem memD _ _ _ hnd hmem, hL, hR]
    · have hnd : (((gridPairs A.m A.n).map fun p =>
          ((dstAddr A p.1 p.2 : ℤ),
            fun _ : T => memOp (A.lhs + (p.1 : ℤ) * A.lhs_rs) *
              (A.beta * memOp (A.rhs + (p.2 : ℤ) * A.rhs_cs)))).map Prod.fst).Nodup := by
        rw [List.map_map]
        exact dstAddr_grid_nodup A hinj
      have hmem : ((dstAddr A i j : ℤ),
          fun _ : T => memOp (A.lhs + (i : ℤ) * A.lhs_rs) *
            (A.beta * memOp (A.rhs + (j : ℤ) * A.rhs_cs))) ∈
            (gridPairs A.m A.n).map fun p =>
              ((dstAddr A p.1 p.2 : ℤ),
                fun _ : T => memOp (A.lhs + (p.1 : ℤ) * A.lhs_rs) *
                  (A.beta * memOp (A.rhs + (p.2 : ℤ) * A.rhs_cs))) :=
        List.mem_map.mpr ⟨(i, j), mem_gridPairs.mpr ⟨hi, hj⟩, rfl⟩
      rw [applyCells_eq_of_mem memD _ _ _ hnd hmem, hL, hR]
  · intro hr ha i hi j hj
    unfold kOneCells
    rw [hr, if_pos rfl, if_pos ha]
    exact List.mem_map.mpr ⟨(i, j), mem_gridPairs.mpr ⟨hi, hj⟩, rfl⟩

/-- Claim C4 (witness): the rank-1 property at the concrete one-element problem
of scenario S1. -/
theorem c4_witness :
    applyCells (fun _ => (5 : ℤ)) (kOneCells (fun a b c => a * b + c) exS1op exS1)
        (dstAddr exS1 0 0) =
      if exS1.read_dst then
        exS1.alpha * (fun _ => (5 : ℤ)) (dstAddr exS1 0 0) +
          exS1op (lhsAddr exS1 0 0) * (exS1.beta * exS1op (rhsAddr exS1 0 0))
      else exS1op (lhsAddr exS1 0 0) * (exS1.beta * exS1op (rhsAddr exS1 0 0)) :=
  (c4_thm (fun a b c => a * b + c) exS1op (fun _ => 5) exS1 (by decide) (by decide)
    (by
      intro i1 h1 j1 h2 i2 h3 j2 h4 _
      simp only [exS1] at h1 h2 h3 h4
      omega)
    (fun _ _ _ => rfl)).1 0 (by decide) 0 (by decide)

/-- Claim C5: the shared R pack is skipped iff `m ≤ MR` or `|rhs_rs| = 1`; the
per-thread L pack of a band is skipped iff `m_chunk mod MR = 0`, `lhs_rs = 1`
and `n ≤ 16`; and a skipped pack makes the micro-kernel read the operand through
the original memory at the original offset with the original strides instead of
the packed layout. -/
theorem c5_thm {T : Type} [CommRing T] [DecidableEq T] :
    (∀ C : DriverCtx T,
      (C.doPackRhs = false ↔ C.A.m ≤ C.MR ∨ C.A.rhs_rs.natAbs = 1)) ∧
    (∀ (C : DriverCtx T) (mChunk : ℕ),
      (C.doPackLhs mChunk = false ↔ mChunk % C.MR = 0 ∧ C.A.lhs_rs = 1 ∧ C.A.n ≤ 16)) ∧
    (∀ (S : SliceCtx T) (j : ℕ), S.C.doPackRhs = false →
      S.rhsRead = S.C.memOp ∧
      S.rhsBase j = S.C.A.rhs + (S.depthOuter : ℤ) * S.C.A.rhs_rs +
        ((S.colOuter + S.C.NR * j : ℕ) : ℤ) * S.C.A.rhs_cs ∧
      S.C.packedRhsRs = S.C.A.rhs_rs ∧ S.C.packedRhsCs = S.C.A.rhs_cs) ∧
    (∀ (S : SliceCtx T) (rowOuter mChunk i : ℕ), S.C.doPackLhs mChunk = false →
      S.lhsRead rowOuter mChunk = S.C.memOp ∧
      S.lhsBase rowOuter mChunk i = S.C.A.lhs +
        ((rowOuter + S.C.MR * i : ℕ) : ℤ) * S.C.A.lhs_rs +
        (S.depthOuter : ℤ) * S.C.A.lhs_cs ∧
      S.C.packedLhsCs mChunk = S.C.A.lhs_cs) := by
  refine ⟨?_, ?_, ?_, ?_⟩
  · intro C
    unfold DriverCtx.doPackRhs
    simp only [Bool.and_eq_false_iff, decide_eq_false_iff_not, not_lt, ne_eq, not_not]
  · intro C mChunk
    unfold DriverCtx.doPackLhs
    simp only [Bool.or_eq_false_iff, decide_eq_false_iff_not, ne_eq, not_not, not_lt]
    tauto
  · intro S j h
    unfold SliceCtx.rhsRead SliceCtx.rhsBase DriverCtx.packedRhsRs DriverCtx.packedRhsCs
    rw [h]
    simp
  · intro S rowOuter mChunk i h
    unfold SliceCtx.lhsRead SliceCtx.lhsBase DriverCtx.packedLhsCs
    rw [h]
    simp

/-- Claim C5 (witness): a concrete driver context (MR = 8 ≥ m = 5, unit
`lhs_rs`, n = 5 ≤ 16) where both packs are skipped and the kernel arguments are
the original pointers and strides. -/
theorem c5_witness :
    ((⟨exDrv, 1, 8, 4, 1, 8, 4, 8, 1, fun _ => (0 : ℤ)⟩ : DriverCtx ℤ)).doPackRhs = false ∧
    ((⟨exDrv, 1, 8, 4, 1, 8, 4, 8, 1, fun _ => (0 : ℤ)⟩ : DriverCtx ℤ)).doPackLhs 8 = false ∧
    (((⟨⟨exDrv, 1, 8, 4, 1, 8, 4, 8, 1, fun _ => (0 : ℤ)⟩, 0, 4, 0, 1, 0⟩ :
        SliceCtx ℤ)).rhsRead =
      (⟨⟨exDrv, 1, 8, 4, 1, 8, 4, 8, 1, fun _ => (0 : ℤ)⟩, 0, 4, 0, 1, 0⟩ :
        SliceCtx ℤ).C.memOp ∧
      ((⟨⟨exDrv, 1, 8, 4, 1, 8, 4, 8, 1, fun _ => (0 : ℤ)⟩, 0, 4, 0, 1, 0⟩ :
        SliceCtx ℤ)).rhsBase 0 =
        exDrv.rhs + (0 : ℤ) * exDrv.rhs_rs + ((0 + 8 * 0 : ℕ) : ℤ) * exDrv.rhs_cs ∧
      ((⟨exDrv, 1, 8, 4, 1, 8, 4, 8, 1, fun _ => (0 : ℤ)⟩ : DriverCtx ℤ)).packedRhsRs =
        exDrv.rhs_rs ∧
      ((⟨exDrv, 1, 8, 4, 1, 8, 4, 8, 1, fun _ => (0 : ℤ)⟩ : DriverCtx ℤ)).packedRhsCs =
        exDrv.rhs_cs) ∧
    (((⟨⟨exDrv, 1, 8, 4, 1, 8, 4, 8, 1, fun _ => (0 : ℤ)⟩, 0, 4, 0, 1, 0⟩ :
        SliceCtx ℤ)).lhsRead 0 8 =
      (⟨⟨exDrv, 1, 8, 4, 1, 8, 4, 8, 1, fun _ => (0 : ℤ)⟩, 0, 4, 0, 1, 0⟩ :
        SliceCtx ℤ).C.memOp ∧
      ((⟨⟨exDrv, 1, 8, 4, 1, 8, 4, 8, 1, fun _ => (0 : ℤ)⟩, 0, 4, 0, 1, 0⟩ :
        SliceCtx ℤ)).lhsBase 0 8 0 =
        exDrv.lhs + ((0 + 8 * 0 : ℕ) : ℤ) * exDrv.lhs_rs + (0 : ℤ) * exDrv.lhs_cs ∧
      ((⟨exDrv, 1, 8, 4, 1, 8, 4, 8, 1, fun _ => (0 : ℤ)⟩ : DriverCtx ℤ)).packedLhsCs 8 =
        exDrv.lhs_cs) := by
  refine ⟨by decide, by decide, ?_, ?_⟩
  · exact (c5_thm.2.2.1 _ 0 (by decide))
  · exact (c5_thm.2.2.2 _ 0 8 0 (by decide))

/-- Claim C7: `gemm_req` evaluates the per-ISA requirement at the transposed
orientation (n, m, k) and the original orientation (m, n, k) and returns their
maximum; each orientation's requirement is the cache-line-aligned sum of
`packed_rhs_stride · (nc/NR)` elements for the shared R buffer and
`max_threads · packed_lhs_stride · (mc/MR)` elements for the per-thread L
buffers; and the `Overflow` variant (here `none`) is returned exactly when one
of the intermediate byte counts exceeds the platform word. -/
theorem c7_thm (kpf : ℕ → ℕ → ℕ → ℕ → ℕ → ℕ → KParams) (mr nr sizeofT m n k th : ℕ) :
    (∀ mm nn b : ℕ,
      gemm_basic_req_generic kpf mr nr sizeofT mm nn k th = some b →
      b = alignUp (div_ceil ((kpf mm nn k mr nr sizeofT).kc * nr) (64 / sizeofT) *
            (64 / sizeofT) * ((kpf mm nn k mr nr sizeofT).nc / nr) * sizeofT) 64 +
          th * (div_ceil ((kpf mm nn k mr nr sizeofT).kc * mr) (64 / sizeofT) *
            (64 / sizeofT)) * ((kpf mm nn k mr nr sizeofT).mc / mr) * sizeofT) ∧
    (∀ a b : ℕ,
      gemm_basic_req_generic kpf mr nr sizeofT n m k th = some a →
      gemm_basic_req_generic kpf mr nr sizeofT m n k th = some b →
      gemm_req kpf mr nr sizeofT m n k th = some (max a b)) ∧
    (gemm_req kpf mr nr sizeofT m n k th = none ↔
      gemm_basic_req_generic kpf mr nr sizeofT n m k th = none ∨
      gemm_basic_req_generic kpf mr nr sizeofT m n k th = none) ∧
    (∀ mm nn : ℕ,
      (gemm_basic_req_generic kpf mr nr sizeofT mm nn k th = none ↔
        usizeMax < div_ceil ((kpf mm nn k mr nr sizeofT).kc * nr) (64 / sizeofT) *
            (64 / sizeofT) * ((kpf mm nn k mr nr sizeofT).nc / nr) * sizeofT ∨
        usizeMax < th * (div_ceil ((kpf mm nn k mr nr sizeofT).kc * mr) (64 / sizeofT) *
            (64 / sizeofT)) * ((kpf mm nn k mr nr sizeofT).mc / mr) * sizeofT ∨
        usizeMax < alignUp (div_ceil ((kpf mm nn k mr nr sizeofT).kc * nr) (64 / sizeofT) *
            (64 / sizeofT) * ((kpf mm nn k mr nr sizeofT).nc / nr) * sizeofT) 64 +
          th * (div_ceil ((kpf mm nn k mr nr sizeofT).kc * mr) (64 / sizeofT) *
            (64 / sizeofT)) * ((kpf mm nn k mr nr sizeofT).mc / mr) * sizeofT)) := by
  refine ⟨?_, ?_, ?_, ?_⟩
  · intro mm nn b hb
    unfold gemm_basic_req_generic tryNewAligned tryAnd at hb
    simp only at hb
    split_ifs at hb with h1 h2 h3 <;> simp_all
  · intro a b ha hb
    unfold gemm_req
    rw [ha, hb]
  · unfold gemm_req
    cases h1 : gemm_basic_req_generic kpf mr nr sizeofT n m k th with
    | none => simp
    | some a =>
      cases h2 : gemm_basic_req_generic kpf mr nr sizeofT m n k th with
      | none => simp
      | some b => simp
  · intro mm nn
    unfold gemm_basic_req_generic tryNewAligned tryAnd
    simp only
    split_ifs with h1 h2 h3 <;> simp_all <;> omega

/-- Claim C7 (witness): for the 1×1×1 problem with the constant oracle
(kc, mc, nc) = (1, 2, 4), MR = 2, NR = 4, 8-byte elements and one thread, both
orientations require 128 bytes and the wrapper returns their maximum. -/
theorem c7_witness :
    gemm_basic_req_generic (kpfConst ⟨1, 2, 4⟩) 2 4 8 1 1 1 1 = some 128 ∧
    gemm_req (kpfConst ⟨1, 2, 4⟩) 2 4 8 1 1 1 1 = some (max 128 128) :=
  ⟨by decide,
    (c7_thm (kpfConst ⟨1, 2, 4⟩) 2 4 8 1 1 1 1).2.1 128 128 (by decide) (by decide)⟩

theorem fallback_addrs_nodup {T : Type} (A : GArgs T)
    (hinj : ∀ i1 < A.m, ∀ j1 < A.n, ∀ i2 < A.m, ∀ j2 < A.n,
      dstAddr A i1 j1 = dstAddr A i2 j2 → i1 = i2 ∧ j1 = j2) :
    ((List.range A.m).flatMap fun row =>
      (List.range A.n).map fun col => dstAddr A row col).Nodup := by
  have he : ((List.range A.m).flatMap fun row =>
        (List.range A.n).map fun col => dstAddr A row col) =
      (gridPairs A.n A.m).map fun p => dstAddr A p.2 p.1 := by
    unfold gridPairs
    rw [List.map_flatMap]
    simp only [List.map_map]
    rfl
  rw [he]
  apply List.Nodup.map_on ?_ (gridPairs_nodup _ _)
  intro p hp q hq hpq
  rcases mem_gridPairs.mp hp with ⟨hp1, hp2⟩
  rcases mem_gridPairs.mp hq with ⟨hq1, hq2⟩
  rcases hinj p.2 hp2 p.1 hp1 q.2 hq2 q.1 hq1 hpq with ⟨h1, h2⟩
  exact Prod.ext h2 h1

/-- Claim C8 (counterexample): the multi-threaded fallback does not thread only
over the outer m axis — its loop-nest shape has a parallel iterator directly
inside the outer parallel iterator (`(0..m).into_par_iter()` over
`(0..n).into_par_iter()` at lines 1085–1086). -/
theorem c8_counterexample : onlyOuterPar (fallbackShape 1 1 2) = false := by decide

/-- Claim C8 (amended): for unsupported element types gemm runs the triple-loop
fallback: D[i,j] becomes β·(Σ_d L[i,d]·R[d,j]), plus α·D_in[i,j] when
`read_dst`; the result is independent of the scratch region (the fallback
discards its stack argument); and with more than one thread it parallelises
over both the m and the n axes — nested parallel iterators — not only the
outer m axis. -/
theorem c8_thm {T : Type} [CommRing T] [DecidableEq T] (mulAdd : T → T → T → T)
    (kpf : ℕ → ℕ → ℕ → ℕ → ℕ → ℕ → KParams) (N MR NR simdStride sizeofT nThreads : ℕ)
    (memOp scratch1 scratch2 memD : Mem T) (A : GArgs T)
    (hinj : ∀ i1 < A.m, ∀ j1 < A.n, ∀ i2 < A.m, ∀ j2 < A.n,
      dstAddr A i1 j1 = dstAddr A i2 j2 → i1 = i2 ∧ j1 = j2) :
    (∀ i < A.m, ∀ j < A.n,
      gemm_run false mulAdd kpf N MR NR simdStride sizeofT nThreads memOp A scratch1 memD
          (dstAddr A i j) =
        if A.read_dst then
          A.beta * (∑ d ∈ Finset.range A.k, memOp (lhsAddr A i d) * memOp (rhsAddr A d j)) +
            A.alpha * memD (dstAddr A i j)
        else
          A.beta * (∑ d ∈ Finset.range A.k, memOp (lhsAddr A i d) * memOp (rhsAddr A d j))) ∧
    (gemm_run false mulAdd kpf N MR NR simdStride sizeofT nThreads memOp A scratch1 memD =
      gemm_run false mulAdd kpf N MR NR simdStride sizeofT nThreads memOp A scratch2 memD) ∧
    (2 ≤ nThreads →
      fallbackShape A.m A.n nThreads =
        Sh.pars ((List.range A.m).map fun _ =>
          Sh.pars ((List.range A.n).map fun _ => Sh.leaf))) := by
  refine ⟨?_, rfl, ?_⟩
  · intro i hi j hj
    show applyCells memD (fallbackCells memOp A) (dstAddr A i j) = _
    have hnd : ((fallbackCells memOp A).map Prod.fst).Nodup := by
      unfold fallbackCells
      rw [List.map_flatMap]
      simp only [List.map_map]
      exact fallback_addrs_nodup A hinj
    have hmem : ((dstAddr A i j : ℤ),
        fun d : T =>
          let acc := (∑ depth ∈ Finset.range A.k,
            memOp (lhsAddr A i depth) * memOp (rhsAddr A depth j)) * A.beta
          if A.read_dst then acc + A.alpha * d else acc) ∈ fallbackCells memOp A := by
      unfold fallbackCells
      refine List.mem_flatMap.mpr ⟨i, List.mem_range.mpr hi, ?_⟩
      exact List.mem_map.mpr ⟨j, List.mem_range.mpr hj, rfl⟩
    rw [applyCells_eq_of_mem memD _ _ _ hnd hmem]
    dsimp only
    split_ifs <;> ring
  · intro h
    unfold fallbackShape
    rw [if_neg (by omega)]

/-- Claim C8 (witness): the fallback property at the concrete one-element
problem of scenario S1 with two threads and two different scratch memories. -/
theorem c8_witness :
    (∀ i < exS1.m, ∀ j < exS1.n,
      gemm_run false (fun a b c => a * b + c) (kpfConst ⟨1, 2, 4⟩) 1 2 4 8 8 2 exS1op exS1
          (fun _ => (0 : ℤ)) (fun _ => (5 : ℤ)) (dstAddr exS1 i j) =
        if exS1.read_dst then
          exS1.beta * (∑ d ∈ Finset.range exS1.k,
            exS1op (lhsAddr exS1 i d) * exS1op (rhsAddr exS1 d j)) +
            exS1.alpha * (fun _ => (5 : ℤ)) (dstAddr exS1 i j)
        else
          exS1.beta * (∑ d ∈ Finset.range exS1.k,
            exS1op (lhsAddr exS1 i d) * exS1op (rhsAddr exS1 d j))) ∧
    (gemm_run false (fun a b c => a * b + c) (kpfConst ⟨1, 2, 4⟩) 1 2 4 8 8 2 exS1op exS1
        (fun _ => (0 : ℤ)) (fun _ => (5 : ℤ)) =
      gemm_run false (fun a b c => a * b + c) (kpfConst ⟨1, 2, 4⟩) 1 2 4 8 8 2 exS1op exS1
        (fun _ => (1 : ℤ)) (fun _ => (5 : ℤ))) ∧
    fallbackShape exS1.m exS1.n 2 =
      Sh.pars ((List.range exS1.m).map fun _ =>
        Sh.pars ((List.range exS1.n).map fun _ => Sh.leaf)) := by
  have h := c8_thm (T := ℤ) (fun a b c => a * b + c) (kpfConst ⟨1, 2, 4⟩) 1 2 4 8 8 2
    exS1op (fun _ => (0 : ℤ)) (fun _ => (1 : ℤ)) (fun _ => (5 : ℤ)) exS1
    (by
      intro i1 h1 j1 h2 i2 h3 j2 h4 _
      simp only [exS1] at h1 h2 h3 h4
      omega)
  exact ⟨h.1, h.2.1, h.2.2 (by omega)⟩

theorem jobRange_eq (J T tid : ℕ) :
    jobRange J T tid =
      if tid < J % T then
        (tid * (J / T + 1), tid * (J / T + 1) + (J / T + 1))
      else (J % T + tid * (J / T), J % T + tid * (J / T) + J / T) := by
  unfold jobRange
  dsimp only
  have h := Nat.div_add_mod J T
  have hr : J - T * (J / T) = J % T := by omega
  rw [hr]
  split_ifs with h1
  · rfl
  · simp only [Prod.mk.injEq]
    constructor
    · ring
    · ring

theorem jobRange_chain (J T t : ℕ) :
    (jobRange J T t).2 = (jobRange J T (t + 1)).1 := by
  unfold jobRange
  dsimp only
  have h := Nat.div_add_mod J T
  have hr : J - T * (J / T) = J % T := by omega
  rw [hr]
  split_ifs with h1 h2 h2
  · show t * (J / T + 1) + (J / T + 1) = (t + 1) * (J / T + 1)
    ring
  · show t * (J / T + 1) + (J / T + 1) = (t + 1) * (J / T) + J % T
    have he : J % T = t + 1 := by omega
    rw [he]
    ring
  · omega
  · show t * (J / T) + J % T + J / T = (t + 1) * (J / T) + J % T
    ring

theorem jobRange_start_zero (J T : ℕ) : (jobRange J T 0).1 = 0 := by
  unfold jobRange
  dsimp only
  split_ifs <;> simp <;> omega

theorem jobRange_len (J T t : ℕ) :
    (jobRange J T t).1 ≤ (jobRange J T t).2 := by
  unfold jobRange
  dsimp only
  split_ifs <;> exact Nat.le_add_right _ _

theorem jobRange_start_T (J T : ℕ) (hT : 0 < T) : (jobRange J T T).1 = J := by
  have h1 := jobRange_chain J T (T - 1)
  have h2 : T - 1 + 1 = T := by omega
  rw [h2] at h1
  rw [← h1]
  unfold jobRange
  dsimp only
  have hd := Nat.div_add_mod J T
  have hm := Nat.mod_lt J hT
  have hr : J - T * (J / T) = J % T := by omega
  rw [hr]
  rw [if_neg (by omega)]
  show (T - 1) * (J / T) + J % T + J / T = J
  have he : (T - 1) * (J / T) + J / T = T * (J / T) := by
    have h3 : T - 1 + 1 = T := by omega
    calc (T - 1) * (J / T) + J / T = (T - 1 + 1) * (J / T) := by ring
    _ = T * (J / T) := by rw [h3]
  omega

theorem jobRange_start_mono (J T : ℕ) (a b : ℕ) (hab : a ≤ b) :
    (jobRange J T a).1 ≤ (jobRange J T b).1 := by
  induction b with
  | zero => simp_all
  | succ n ih =>
    rcases Nat.lt_or_ge a (n + 1) with h | h
    · have h1 := ih (by omega)
      have h2 := jobRange_len J T n
      have h3 := jobRange_chain J T n
      omega
    · have : a = n + 1 := by omega
      subst this
      exact le_refl _

theorem jobRange_subset (J T tid ℓ : ℕ) (hT : 0 < T) (htid : tid < T)
    (hin : jobIn J T tid ℓ) : ℓ < J := by
  rcases hin with ⟨h1, h2⟩
  have h3 := jobRange_chain J T tid
  have h4 := jobRange_start_mono J T (tid + 1) T (by omega)
  have h5 := jobRange_start_T J T hT
  omega

theorem jobRange_cover (J T ℓ : ℕ) (hT : 0 < T) (hl : ℓ < J) :
    ∃ tid, tid < T ∧ jobIn J T tid ℓ := by
  by_contra hc
  push_neg at hc
  have key : ∀ t, t < T → (jobRange J T t).1 ≤ ℓ → (jobRange J T (t + 1)).1 ≤ ℓ := by
    intro t ht hs
    have hni := hc t ht
    unfold jobIn at hni
    have h3 := jobRange_chain J T t
    by_cases he : ℓ < (jobRange J T t).2
    · exact absurd ⟨hs, he⟩ hni
    · omega
  have all : ∀ t, t ≤ T → (jobRange J T t).1 ≤ ℓ := by
    intro t
    induction t with
    | zero => intro _; rw [jobRange_start_zero]; omega
    | succ n ih => intro h; exact key n (by omega) (ih (by omega))
  have hTT := all T (le_refl T)
  rw [jobRange_start_T J T hT] at hTT
  omega

theorem jobRange_disjoint (J T t1 t2 ℓ : ℕ) (h12 : t1 ≠ t2)
    (hin1 : jobIn J T t1 ℓ) (hin2 : jobIn J T t2 ℓ) : False := by
  rcases hin1 with ⟨ha1, ha2⟩
  rcases hin2 with ⟨hb1, hb2⟩
  rcases Nat.lt_or_ge t1 t2 with h | h
  · have h3 := jobRange_chain J T t1
    have h4 := jobRange_start_mono J T (t1 + 1) t2 (by omega)
    omega
  · have h5 : t2 < t1 := by omega
    have h3 := jobRange_chain J T t2
    have h4 := jobRange_start_mono J T (t2 + 1) t1 (by omega)
    omega

theorem chunksFromAux_shape (step : ℕ) (hstep : 0 < step) :
    ∀ (fuel start total : ℕ), total - start ≤ fuel →
      ∀ st len : ℕ, (st, len) ∈ chunksFromAux step fuel start total →
        len = min step (total - st) ∧ start ≤ st ∧ st + len ≤ total := by
  intro fuel
  induction fuel with
  | zero => intro start total _ st len h; cases h
  | succ n ih =>
    intro start total hf st len h
    unfold chunksFromAux at h
    split_ifs at h with hlt
    · dsimp only at h
      rcases List.mem_cons.mp h with he | he
      · have h1 : st = start := (Prod.mk.injEq _ _ _ _ |>.mp he).1
        have h2 : len = min step (total - start) := (Prod.mk.injEq _ _ _ _ |>.mp he).2
        subst h1
        refine ⟨h2, le_refl _, by omega⟩
      · have := ih (start + min step (total - start)) total (by omega) st len he
        refine ⟨this.1, by omega, this.2.2⟩
    · cases h

theorem chunksFromAux_cover (step : ℕ) (hstep : 0 < step) :
    ∀ (fuel start total x : ℕ), total - start ≤ fuel → start ≤ x → x < total →
      ∃ pre st len post,
        chunksFromAux step fuel start total = pre ++ (st, len) :: post ∧
          st ≤ x ∧ x < st + len := by
  intro fuel
  induction fuel with
  | zero => intro start total x hf h1 h2; omega
  | succ n ih =>
    intro start total x hf h1 h2
    unfold chunksFromAux
    rw [if_pos (by omega)]
    dsimp only
    by_cases hx : x < start + min step (total - start)
    · exact ⟨[], start, min step (total - start), _, rfl, h1, hx⟩
    · have hrec := ih (start + min step (total - start)) total x (by omega) (by omega) h2
      rcases hrec with ⟨pre, st, len, post, heq, hs, he⟩
      exact ⟨(start, min step (total - start)) :: pre, st, len, post, by rw [heq]; rfl, hs, he⟩

theorem chunksFrom_cover (step total x : ℕ) (hstep : 0 < step) (hx : x < total) :
    ∃ pre st len post,
      chunksFrom step total = pre ++ (st, len) :: post ∧ st ≤ x ∧ x < st + len :=
  chunksFromAux_cover step hstep total 0 total x (by omega) (by omega) hx

theorem chunksFrom_shape (step total st len : ℕ) (hstep : 0 < step)
    (h : (st, len) ∈ chunksFrom step total) :
    len = min step (total - st) ∧ st + len ≤ total :=
  let h2 := chunksFromAux_shape step hstep total 0 total (by omega) st len h
  ⟨h2.1, h2.2.2⟩

theorem chunksFromAux_unique (step : ℕ) (hstep : 0 < step) :
    ∀ (fuel start total : ℕ), total - start ≤ fuel →
      ∀ b1 b2 : ℕ × ℕ, b1 ∈ chunksFromAux step fuel start total →
        b2 ∈ chunksFromAux step fuel start total →
        ∀ x : ℕ, b1.1 ≤ x → x < b1.1 + b1.2 → b2.1 ≤ x → x < b2.1 + b2.2 → b1 = b2 := by
  intro fuel
  induction fuel with
  | zero => intro start total _ b1 b2 h1; cases h1
  | succ n ih =>
    intro start total hf b1 b2 h1 h2 x hx1 hx2 hx3 hx4
    unfold chunksFromAux at h1 h2
    split_ifs at h1 h2 with hlt
    · rcases List.mem_cons.mp h1 with he1 | he1 <;> rcases List.mem_cons.mp h2 with he2 | he2
      · rw [he1, he2]
      · exfalso
        have hs2 := chunksFromAux_shape step hstep n (start + min step (total - start)) total
          (by omega) b2.1 b2.2 (by rw [show (b2.1, b2.2) = b2 from rfl]; exact he2)
        rw [he1] at hx1 hx2
        simp only at hx1 hx2
        omega
      · exfalso
        have hs1 := chunksFromAux_shape step hstep n (start + min step (total - start)) total
          (by omega) b1.1 b1.2 (by rw [show (b1.1, b1.2) = b1 from rfl]; exact he1)
        rw [he2] at hx3 hx4
        simp only at hx3 hx4
        omega
      · exact ih (start + min step (total - start)) total (by omega) b1 b2 he1 he2 x hx1 hx2 hx3 hx4
    · cases h1

theorem chunksFrom_unique (step total : ℕ) (hstep : 0 < step) (b1 b2 : ℕ × ℕ)
    (h1 : b1 ∈ chunksFrom step total) (h2 : b2 ∈ chunksFrom step total) (x : ℕ)
    (hx1 : b1.1 ≤ x) (hx2 : x < b1.1 + b1.2) (hx3 : b2.1 ≤ x) (hx4 : x < b2.1 + b2.2) :
    b1 = b2 :=
  chunksFromAux_unique step hstep total 0 total (by omega) b1 b2 h1 h2 x hx1 hx2 hx3 hx4

theorem depthGo_alpha {T : Type} [CommRing T] [DecidableEq T] (C : DriverCtx T)
    (colOuter nChunk : ℕ) :
    ∀ (l : List (ℕ × ℕ)) (a : T) (idx : ℕ),
      ∀ si ∈ (depthGo C colOuter nChunk l a idx).2,
        si.mode = modeOf si.alphaUsed ∧ idx ≤ si.sliceIdx ∧
          (si.sliceIdx = idx → si.alphaUsed = a) ∧
          (idx < si.sliceIdx → si.alphaUsed = 1) := by
  intro l
  induction l with
  | nil => intro a idx si h; cases h
  | cons hd tl ih =>
    intro a idx si h
    unfold depthGo at h
    rcases List.mem_cons.mp h with he | he
    · subst he
      exact ⟨rfl, le_refl _, fun _ => rfl, fun hlt => absurd hlt (Nat.lt_irrefl idx)⟩
    · rcases ih 1 (idx + 1) si he with ⟨h1, h2, h3, h4⟩
      refine ⟨h1, by omega, fun h5 => by omega, fun _ => ?_⟩
      rcases Nat.lt_or_ge (idx + 1) si.sliceIdx with h6 | h6
      · exact h4 h6
      · exact h3 (by omega)

theorem foldr_pair_mem_trace {α X Y : Type} (l : List α) (f : α → List X × List Y)
    (y : Y) (h : y ∈ ((l.map f).foldr (fun x acc => (x.1 ++ acc.1, x.2 ++ acc.2))
      ([], [])).2) : ∃ a ∈ l, y ∈ (f a).2 := by
  induction l with
  | nil => cases h
  | cons hd tl ih =>
    simp only [List.map_cons, List.foldr_cons] at h
    rcases List.mem_append.mp h with h1 | h1
    · exact ⟨hd, List.mem_cons_self hd tl, h1⟩
    · rcases ih h1 with ⟨a, ha, hy⟩
      exact ⟨a, List.mem_cons_of_mem hd ha, hy⟩

theorem foldr_pair_mem_cells {α X Y : Type} (l : List α) (f : α → List X × List Y)
    (a : α) (ha : a ∈ l) (x : X) (hx : x ∈ (f a).1) :
    x ∈ ((l.map f).foldr (fun p acc => (p.1 ++ acc.1, p.2 ++ acc.2)) ([], [])).1 := by
  induction l with
  | nil => cases ha
  | cons hd tl ih =>
    simp only [List.map_cons, List.foldr_cons]
    rcases List.mem_cons.mp ha with he | he
    · subst he
      exact List.mem_append.mpr (Or.inl hx)
    · exact List.mem_append.mpr (Or.inr (ih he))

/-- Claim C2 (counterexample): with `read_dst = false` and caller α = 5, the
first depth slice of the first column panel passes logical α = 0 to the
micro-kernels, not the caller's α (line 234 forces α to zero when the
destination is not read). -/
theorem c2_counterexample :
    ∃ si ∈ (gemm_basic_generic_cells (fun a b c => a * b + c) (kpfConst ⟨1, 2, 4⟩)
        1 2 4 8 8 1 (fun _ => (1 : ℤ)) exDrv).2,
      si.sliceIdx = 0 ∧ si.alphaUsed ≠ exDrv.alpha := by
  decide

/-- Claim C2 (amended): within each column panel the logical α passed to the
micro-kernels equals the caller's α when `read_dst` is true — and 0 when it is
false — on the first kc depth slice, and equals 1 on every subsequent slice of
that panel; the dispatch table of a slice is the zero table iff that α is 0,
the one table iff it is 1, and the general table otherwise. -/
theorem c2_thm {T : Type} [CommRing T] [DecidableEq T] [Nontrivial T]
    (C : DriverCtx T) :
    ∀ si ∈ (driverCellsTrace C).2,
      (si.alphaUsed =
        if si.sliceIdx = 0 then (if C.A.read_dst then C.A.alpha else 0) else 1) ∧
      (si.mode = AlphaMode.zero ↔ si.alphaUsed = 0) ∧
      (si.mode = AlphaMode.one ↔ si.alphaUsed = 1) ∧
      (si.mode = AlphaMode.general ↔ (si.alphaUsed ≠ 0 ∧ si.alphaUsed ≠ 1)) := by
  intro si h
  unfold driverCellsTrace at h
  rcases foldr_pair_mem_trace _ _ _ h with ⟨p, hp, hsi⟩
  rcases depthGo_alpha C p.1 p.2 (chunksFrom C.kc C.A.k)
    (if C.A.read_dst then C.A.alpha else 0) 0 si hsi with ⟨h1, _, h3, h4⟩
  constructor
  · by_cases h0 : si.sliceIdx = 0
    · rw [if_pos h0]; exact h3 h0
    · rw [if_neg h0]; exact h4 (by omega)
  · rw [h1]
    unfold modeOf
    split_ifs with hz ho
    · simp [hz]
    · simp [ho, hz]
    · simp [hz, ho]

/-- Claim C2 (witness): the amended property evaluated on the first slice of the
trace of the concrete driver-path input `exDrv` (read_dst = false, caller α = 5,
two slices per panel), which carries α = 0 and the zero table. -/
theorem c2_witness :
    ((⟨0, 0, 0, (0 : ℤ), AlphaMode.zero⟩ : SliceInfo ℤ).alphaUsed =
      if (⟨0, 0, 0, (0 : ℤ), AlphaMode.zero⟩ : SliceInfo ℤ).sliceIdx = 0 then
        (if exDrv.read_dst then exDrv.alpha else 0) else 1) ∧
    ((⟨0, 0, 0, (0 : ℤ), AlphaMode.zero⟩ : SliceInfo ℤ).mode = AlphaMode.zero ↔
      (⟨0, 0, 0, (0 : ℤ), AlphaMode.zero⟩ : SliceInfo ℤ).alphaUsed = 0) ∧
    ((⟨0, 0, 0, (0 : ℤ), AlphaMode.zero⟩ : SliceInfo ℤ).mode = AlphaMode.one ↔
      (⟨0, 0, 0, (0 : ℤ), AlphaMode.zero⟩ : SliceInfo ℤ).alphaUsed = 1) ∧
    ((⟨0, 0, 0, (0 : ℤ), AlphaMode.zero⟩ : SliceInfo ℤ).mode = AlphaMode.general ↔
      ((⟨0, 0, 0, (0 : ℤ), AlphaMode.zero⟩ : SliceInfo ℤ).alphaUsed ≠ 0 ∧
        (⟨0, 0, 0, (0 : ℤ), AlphaMode.zero⟩ : SliceInfo ℤ).alphaUsed ≠ 1)) :=
  c2_thm (⟨exDrv, 1, 2, 4, 1, 2, 4, 8, 1, fun _ => (1 : ℤ)⟩ : DriverCtx ℤ)
    (⟨0, 0, 0, (0 : ℤ), AlphaMode.zero⟩ : SliceInfo ℤ) (by decide)

theorem enumFrom_append_eq {α : Type} (l1 l2 : List α) :
    ∀ n : ℕ, (l1 ++ l2).enumFrom n = l1.enumFrom n ++ l2.enumFrom (n + l1.length) := by
  induction l1 with
  | nil => intro n; simp
  | cons a l1 ih =>
    intro n
    simp only [List.cons_append, List.enumFrom_cons, ih (n + 1), List.length_cons]
    have h : n + 1 + l1.length = n + (l1.length + 1) := by omega
    rw [h]

theorem enumFrom_fst_bounds {α : Type} {l : List α} {n : ℕ} {p : ℕ × α}
    (h : p ∈ l.enumFrom n) : n ≤ p.1 ∧ p.1 < n + l.length := by
  obtain ⟨a, x⟩ := p
  rw [List.mk_mem_enumFrom_iff_le_and_getElem?_sub] at h
  obtain ⟨h1, h2⟩ := h
  have h2' : l[a - n]? = some x := h2
  have h3 : a - n < l.length := by
    rcases List.getElem?_eq_some_iff.mp h2' with ⟨hlt, _⟩
    exact hlt
  exact ⟨h1, by omega⟩

theorem mem_enumFrom_zero_of_getElem {α : Type} {l : List α} {n : ℕ} {a : α}
    (h : l[n]? = some a) : (n, a) ∈ l.enumFrom 0 := by
  rw [List.mk_mem_enumFrom_iff_le_and_getElem?_sub]
  refine ⟨Nat.zero_le n, ?_⟩
  rw [Nat.sub_zero]
  exact h

theorem enumFrom_map_eq {α β : Type} (f : α → β) (l : List α) :
    ∀ n : ℕ, (l.map f).enumFrom n = (l.enumFrom n).map (Prod.map id f) := by
  induction l with
  | nil => intro n; simp
  | cons a l ih => intro n; simp [List.enumFrom_cons, ih (n + 1), Prod.map]

theorem jiList_split (nCol nRow : ℕ) :
    jiList (nCol + 1) nRow =
      jiList nCol nRow ++ (List.range nRow).map (fun i => (nCol, i)) := by
  unfold jiList
  rw [List.range_succ, List.flatMap_append]
  simp

theorem jiList_length (nCol nRow : ℕ) : (jiList nCol nRow).length = nCol * nRow := by
  induction nCol with
  | zero => simp [jiList]
  | succ n ih =>
    rw [jiList_split, List.length_append, ih, List.length_map, List.length_range,
      Nat.succ_mul]

theorem mul_add_lt_mul {j i nCol nRow : ℕ} (hj : j < nCol) (hi : i < nRow) :
    j * nRow + i < nCol * nRow := by
  have h1 : (j + 1) * nRow = j * nRow + nRow := by ring
  have h2 : (j + 1) * nRow ≤ nCol * nRow := Nat.mul_le_mul (by omega) (Nat.le_refl nRow)
  omega

theorem jiList_getElem (nCol nRow : ℕ) :
    ∀ j i : ℕ, j < nCol → i < nRow → (jiList nCol nRow)[j * nRow + i]? = some (j, i) := by
  induction nCol with
  | zero => intro j i hj _; omega
  | succ n ih =>
    intro j i hj hi
    rw [jiList_split]
    rcases Nat.lt_or_ge j n with h | h
    · rw [List.getElem?_append_left (by rw [jiList_length]; exact mul_add_lt_mul h hi)]
      exact ih j i h hi
    · have hjn : j = n := by omega
      subst hjn
      rw [List.getElem?_append_right (by rw [jiList_length]; omega)]
      rw [jiList_length]
      have he : j * nRow + i - j * nRow = i := by omega
      rw [he, List.getElem?_map, List.getElem?_range hi]
      rfl

theorem div_lt_ceil_div (a b MR : ℕ) (hMR : 0 < MR) (h : a < b) :
    a / MR < (b + (MR - 1)) / MR := by
  have h1 : a / MR * MR ≤ a := Nat.div_mul_le_self a MR
  have h2 : (a / MR + 1) * MR = a / MR * MR + MR := by ring
  have h3 : (a / MR + 1) * MR ≤ b + (MR - 1) := by omega
  have h4 := (Nat.le_div_iff_mul_le hMR).mpr h3
  omega

theorem sumJobs_cons {T : Type} (S : SliceCtx T) (bd : ℕ × ℕ) (l : List (ℕ × ℕ)) :
    sumJobs S (bd :: l) = S.bandJobs bd + sumJobs S l := by
  simp [sumJobs]

theorem sumJobs_append {T : Type} (S : SliceCtx T) (l1 l2 : List (ℕ × ℕ)) :
    sumJobs S (l1 ++ l2) = sumJobs S l1 + sumJobs S l2 := by
  simp [sumJobs]

theorem bandTiles_length {T : Type} (S : SliceCtx T) (bd : ℕ × ℕ) :
    (S.bandTiles bd).length = S.bandJobs bd := by
  unfold SliceCtx.bandTiles SliceCtx.bandJobs
  rw [List.length_map, jiList_length]

theorem flatMap_bandTiles_length {T : Type} (S : SliceCtx T) :
    ∀ l : List (ℕ × ℕ), (l.flatMap S.bandTiles).length = sumJobs S l := by
  intro l
  induction l with
  | nil => rfl
  | cons bd rest ih =>
    rw [List.flatMap_cons, List.length_append, ih, bandTiles_length, sumJobs_cons]

theorem foldl_add_eq_sum {α : Type} (f : α → ℕ) (l : List α) :
    ∀ a : ℕ, l.foldl (fun acc bd => acc + f bd) a = a + (l.map f).sum := by
  induction l with
  | nil => intro a; simp
  | cons hd tl ih =>
    intro a
    rw [List.foldl_cons, ih (a + f hd), List.map_cons, List.sum_cons]
    omega

theorem nJobs_eq {T : Type} (S : SliceCtx T) : S.nJobs = sumJobs S S.C.bands := by
  unfold SliceCtx.nJobs
  rw [foldl_add_eq_sum (fun bd => S.nColMini * nRowMiniOf S.C.MR bd.2) S.C.bands 0]
  rw [Nat.zero_add]
  rfl

theorem nThreads_pos {T : Type} (S : SliceCtx T) (h : 1 ≤ S.C.nThreadsTop) :
    0 < S.nThreads := by
  unfold SliceCtx.nThreads
  split_ifs <;> omega

theorem tileFold_eq {T : Type} [CommRing T] [DecidableEq T] (S : SliceCtx T)
    (rowOuter mChunk s e : ℕ) :
    ∀ (ps : List (ℕ × ℕ)) (b : ℕ) (acc : List (Cell T)),
      (ps.foldl
        (fun st ji =>
          if st.1 < s ∨ e ≤ st.1 then (st.1 + 1, st.2)
          else (st.1 + 1, st.2 ++ S.tileCells rowOuter mChunk ji.1 ji.2))
        (b, acc)).2 =
        acc ++ tileFilterGo S rowOuter mChunk s e ps b := by
  intro ps
  induction ps with
  | nil => intro b acc; simp [tileFilterGo]
  | cons ji rest ih =>
    intro b acc
    simp only [List.foldl_cons]
    unfold tileFilterGo
    by_cases h : b < s ∨ e ≤ b
    · rw [if_pos h, if_pos h, ih (b + 1) acc]
      simp
    · rw [if_neg h, if_neg h, ih (b + 1) (acc ++ S.tileCells rowOuter mChunk ji.1 ji.2)]
      simp [List.append_assoc]

theorem bandTileCells_eq_go {T : Type} [CommRing T] [DecidableEq T] (S : SliceCtx T)
    (rowOuter mChunk jobBase s e : ℕ) :
    S.bandTileCells rowOuter mChunk jobBase s e =
      tileFilterGo S rowOuter mChunk s e
        (jiList S.nColMini (nRowMiniOf S.C.MR mChunk)) jobBase := by
  unfold SliceCtx.bandTileCells
  rw [tileFold_eq S rowOuter mChunk s e
    (jiList S.nColMini (nRowMiniOf S.C.MR mChunk)) jobBase []]
  simp

theorem tileFilterGo_eq_filter {T : Type} [CommRing T] [DecidableEq T] (S : SliceCtx T)
    (rowOuter mChunk s e : ℕ) :
    ∀ (ps : List (ℕ × ℕ)) (b : ℕ),
      tileFilterGo S rowOuter mChunk s e ps b =
        ((ps.enumFrom b).filter fun p => decide (s ≤ p.1) && decide (p.1 < e)).flatMap
          (fun p => S.tileCells rowOuter mChunk p.2.1 p.2.2) := by
  intro ps
  induction ps with
  | nil => intro b; rfl
  | cons ji rest ih =>
    intro b
    unfold tileFilterGo
    rw [List.enumFrom_cons, List.filter_cons]
    dsimp only
    by_cases h : b < s ∨ e ≤ b
    · have hc : ¬((decide (s ≤ b) && decide (b < e)) = true) := by
        simp only [Bool.and_eq_true, decide_eq_true_eq]
        omega
      rw [if_pos h, if_neg hc, ih (b + 1)]
      simp
    · have hc : (decide (s ≤ b) && decide (b < e)) = true := by
        simp only [Bool.and_eq_true, decide_eq_true_eq]
        omega
      rw [if_neg h, if_pos hc, ih (b + 1), List.flatMap_cons]

theorem bandsCells_eq {T : Type} [CommRing T] [DecidableEq T] (S : SliceCtx T)
    (s e : ℕ) :
    ∀ (bands : List (ℕ × ℕ)) (jobId : ℕ),
      S.bandsCells s e bands jobId =
        (((bands.flatMap S.bandTiles).enumFrom jobId).filter fun p =>
            decide (s ≤ p.1) && decide (p.1 < e)).flatMap
          (fun p => S.tileCellsOf p.2) := by
  intro bands
  induction bands with
  | nil => intro jobId; rfl
  | cons bd rest ih =>
    intro jobId
    obtain ⟨ro, mCh⟩ := bd
    rw [List.flatMap_cons, enumFrom_append_eq, List.filter_append, List.flatMap_append,
      bandTiles_length]
    unfold SliceCtx.bandsCells
    dsimp only
    split_ifs with h1 h2
    · have hf1 : ((S.bandTiles (ro, mCh)).enumFrom jobId).filter
          (fun p => decide (s ≤ p.1) && decide (p.1 < e)) = [] := by
        rw [List.filter_eq_nil_iff]
        intro p hp
        have hb := enumFrom_fst_bounds hp
        simp only [Bool.and_eq_true, decide_eq_true_eq, not_and]
        omega
      have hf2 : ((rest.flatMap S.bandTiles).enumFrom
          (jobId + S.bandJobs (ro, mCh))).filter
          (fun p => decide (s ≤ p.1) && decide (p.1 < e)) = [] := by
        rw [List.filter_eq_nil_iff]
        intro p hp
        have hb := enumFrom_fst_bounds hp
        simp only [Bool.and_eq_true, decide_eq_true_eq, not_and]
        omega
      rw [hf1, hf2]
      rfl
    · have hf1 : ((S.bandTiles (ro, mCh)).enumFrom jobId).filter
          (fun p => decide (s ≤ p.1) && decide (p.1 < e)) = [] := by
        rw [List.filter_eq_nil_iff]
        intro p hp
        have hb := enumFrom_fst_bounds hp
        rw [bandTiles_length] at hb
        have hbj : S.bandJobs (ro, mCh) = S.nColMini * nRowMiniOf S.C.MR mCh := rfl
        simp only [Bool.and_eq_true, decide_eq_true_eq, not_and]
        omega
      rw [hf1, ih (jobId + S.nColMini * nRowMiniOf S.C.MR mCh)]
      rfl
    · rw [bandTileCells_eq_go, tileFilterGo_eq_filter,
        ih (jobId + S.nColMini * nRowMiniOf S.C.MR mCh)]
      have hbt : S.bandTiles (ro, mCh) =
          (jiList S.nColMini (nRowMiniOf S.C.MR mCh)).map
            (fun ji => (ro, mCh, ji.1, ji.2)) := rfl
      rw [hbt, enumFrom_map_eq, List.filter_map, List.flatMap_map]
      have hp : ((fun p : ℕ × (ℕ × ℕ × ℕ × ℕ) =>
            decide (s ≤ p.1) && decide (p.1 < e)) ∘
          Prod.map id (fun ji : ℕ × ℕ => (ro, mCh, ji.1, ji.2))) =
          (fun p : ℕ × (ℕ × ℕ) => decide (s ≤ p.1) && decide (p.1 < e)) := by
        funext p
        obtain ⟨a, ji⟩ := p
        rfl
      have hq : (fun a : ℕ × (ℕ × ℕ) =>
          (fun p : ℕ × (ℕ × ℕ × ℕ × ℕ) => S.tileCellsOf p.2)
            (Prod.map id (fun ji : ℕ × ℕ => (ro, mCh, ji.1, ji.2)) a)) =
          (fun p : ℕ × (ℕ × ℕ) => S.tileCells ro mCh p.2.1 p.2.2) := by
        funext p
        obtain ⟨a, ji⟩ := p
        rfl
      rw [hp, hq]
      rfl

theorem funcCells_filter {T : Type} [CommRing T] [DecidableEq T] (S : SliceCtx T)
    (tid : ℕ) :
    S.funcCells tid =
      ((S.allTiles.enumFrom 0).filter fun p =>
          decide ((jobRange S.nJobs S.nThreads tid).1 ≤ p.1) &&
          decide (p.1 < (jobRange S.nJobs S.nThreads tid).2)).flatMap
        (fun p => S.tileCellsOf p.2) := by
  unfold SliceCtx.funcCells
  dsimp only
  rw [bandsCells_eq]
  rfl

theorem mem_jiList {nCol nRow : ℕ} {ji : ℕ × ℕ} :
    ji ∈ jiList nCol nRow ↔ ji.1 < nCol ∧ ji.2 < nRow := by
  obtain ⟨j, i⟩ := ji
  simp only [jiList, List.mem_flatMap, List.mem_map, List.mem_range, Prod.mk.injEq]
  constructor
  · rintro ⟨j2, hj2, i2, hi2, h1, h2⟩
    subst h1; subst h2; exact ⟨hj2, hi2⟩
  · rintro ⟨h1, h2⟩
    exact ⟨j, h1, i, h2, rfl, rfl⟩

theorem mem_allTiles {T : Type} (S : SliceCtx T) {t : ℕ × ℕ × ℕ × ℕ} :
    t ∈ S.allTiles ↔ ∃ bd ∈ S.C.bands,
      ∃ ji ∈ jiList S.nColMini (nRowMiniOf S.C.MR bd.2),
        t = (bd.1, bd.2, ji.1, ji.2) := by
  unfold SliceCtx.allTiles SliceCtx.bandTiles
  simp only [List.mem_flatMap, List.mem_map]
  constructor
  · rintro ⟨bd, hbd, ji, hji, h⟩
    exact ⟨bd, hbd, ji, hji, h.symm⟩
  · rintro ⟨bd, hbd, ji, hji, h⟩
    exact ⟨bd, hbd, ji, hji, h.symm⟩

theorem tile_exists_unique {T : Type} (S : SliceCtx T) (hmc : 0 < S.C.mc)
    (hMR : 0 < S.C.MR) (hNR : 0 < S.C.NR) :
    ∀ r < S.C.A.m, ∀ c < S.nChunk,
      ∃! t : ℕ × ℕ × ℕ × ℕ, t ∈ S.allTiles ∧ S.tileContains t r c := by
  intro r hr c hc
  rcases chunksFrom_cover S.C.mc S.C.A.m r hmc hr with ⟨pre, ro, mCh, post, heq, hro, hrm⟩
  have hbands : S.C.bands = pre ++ (ro, mCh) :: post := heq
  have hmemband : (ro, mCh) ∈ S.C.bands := by
    rw [hbands]; exact List.mem_append_right _ (List.mem_cons_self _ _)
  have hi : (r - ro) / S.C.MR < nRowMiniOf S.C.MR mCh := by
    unfold nRowMiniOf
    exact div_lt_ceil_div (r - ro) mCh S.C.MR hMR (by omega)
  have hj : c / S.C.NR < S.nColMini := by
    unfold SliceCtx.nColMini
    exact div_lt_ceil_div c S.nChunk S.C.NR hNR hc
  have key_r : ro + S.C.MR * ((r - ro) / S.C.MR) ≤ r ∧
      r < ro + S.C.MR * ((r - ro) / S.C.MR) +
        min S.C.MR (mCh - S.C.MR * ((r - ro) / S.C.MR)) := by
    have h1 := Nat.div_add_mod (r - ro) S.C.MR
    have h2 : (r - ro) % S.C.MR < S.C.MR := Nat.mod_lt _ hMR
    omega
  have key_c : S.C.NR * (c / S.C.NR) ≤ c ∧
      c < S.C.NR * (c / S.C.NR) + min S.C.NR (S.nChunk - S.C.NR * (c / S.C.NR)) := by
    have h1 := Nat.div_add_mod c S.C.NR
    have h2 : c % S.C.NR < S.C.NR := Nat.mod_lt _ hNR
    omega
  have hcont : S.tileContains (ro, mCh, c / S.C.NR, (r - ro) / S.C.MR) r c := by
    unfold SliceCtx.tileContains
    dsimp only
    exact ⟨key_r.1, key_r.2, key_c.1, key_c.2⟩
  have hmem : (ro, mCh, c / S.C.NR, (r - ro) / S.C.MR) ∈ S.allTiles := by
    rw [mem_allTiles]
    exact ⟨(ro, mCh), hmemband, (c / S.C.NR, (r - ro) / S.C.MR),
      mem_jiList.mpr ⟨hj, hi⟩, rfl⟩
  refine ⟨(ro, mCh, c / S.C.NR, (r - ro) / S.C.MR), ⟨hmem, hcont⟩, ?_⟩
  rintro ⟨ro2, mCh2, j2, i2⟩ ⟨hmem2, hcont2⟩
  rw [mem_allTiles] at hmem2
  obtain ⟨bd, hbd, ji, hji, hteq⟩ := hmem2
  injection hteq with e1 hrest1
  injection hrest1 with e2 hrest2
  injection hrest2 with e3 e4
  unfold SliceCtx.tileContains at hcont2
  dsimp only at hcont2
  obtain ⟨hc1, hc2, hc3, hc4⟩ := hcont2
  have hrb : ro2 ≤ r ∧ r < ro2 + mCh2 := by
    have hmin : min S.C.MR (mCh2 - S.C.MR * i2) ≤ mCh2 - S.C.MR * i2 :=
      Nat.min_le_right _ _
    constructor
    · omega
    · omega
  have hbmem2 : ((ro2, mCh2) : ℕ × ℕ) ∈ chunksFrom S.C.mc S.C.A.m := by
    have hbd2 : bd ∈ chunksFrom S.C.mc S.C.A.m := hbd
    have : ((ro2, mCh2) : ℕ × ℕ) = bd := by
      rw [e1, e2]
    rw [this]
    exact hbd2
  have hb : ((ro, mCh) : ℕ × ℕ) = (ro2, mCh2) := by
    have hmemchunks : ((ro, mCh) : ℕ × ℕ) ∈ chunksFrom S.C.mc S.C.A.m := hmemband
    exact chunksFrom_unique S.C.mc S.C.A.m hmc (ro, mCh) (ro2, mCh2) hmemchunks hbmem2 r
      hro hrm hrb.1 hrb.2
  injection hb with hbro hbmCh
  have hieq : i2 = (r - ro) / S.C.MR := by
    have hcm : S.C.MR * i2 = i2 * S.C.MR := Nat.mul_comm _ _
    have h1 : i2 * S.C.MR ≤ r - ro := by omega
    have h2 : r - ro < (i2 + 1) * S.C.MR := by
      have hmin : min S.C.MR (mCh2 - S.C.MR * i2) ≤ S.C.MR := Nat.min_le_left _ _
      have hexp : (i2 + 1) * S.C.MR = i2 * S.C.MR + S.C.MR := by ring
      omega
    exact (Nat.div_eq_of_lt_le h1 h2).symm
  have hjeq : j2 = c / S.C.NR := by
    have hcm : S.C.NR * j2 = j2 * S.C.NR := Nat.mul_comm _ _
    have h1 : j2 * S.C.NR ≤ c := by omega
    have h2 : c < (j2 + 1) * S.C.NR := by
      have hmin : min S.C.NR (S.nChunk - S.C.NR * j2) ≤ S.C.NR := Nat.min_le_left _ _
      have hexp : (j2 + 1) * S.C.NR = j2 * S.C.NR + S.C.NR := by ring
      omega
    exact (Nat.div_eq_of_lt_le h1 h2).symm
  rw [← hbro, ← hbmCh, hieq, hjeq]

/-- Claim C6: for every thread count T ≥ 1 and job count J, with q = J/T and
r = J mod T, thread `tid` gets the half-open job range starting at tid·(q+1)
with q+1 jobs when tid < r, and starting at r + tid·q with q jobs otherwise;
these ranges are pairwise disjoint and cover exactly [0, J), so each job — and
each destination element of one depth slice, which lies in exactly one MR×NR
tile job — is executed by exactly one thread: a thread's closure runs exactly
the tiles whose global job index falls in its range. -/
theorem c6_thm {T2 : Type} [CommRing T2] [DecidableEq T2] (J T : ℕ) (hT : 1 ≤ T) :
    (∀ tid, jobRange J T tid =
      if tid < J % T then (tid * (J / T + 1), tid * (J / T + 1) + (J / T + 1))
      else (J % T + tid * (J / T), J % T + tid * (J / T) + J / T)) ∧
    (∀ t1 t2 ℓ : ℕ, t1 ≠ t2 → ¬(jobIn J T t1 ℓ ∧ jobIn J T t2 ℓ)) ∧
    (∀ ℓ : ℕ, ℓ < J ↔ ∃ tid < T, jobIn J T tid ℓ) ∧
    (∀ ℓ < J, ∃! tid : ℕ, tid < T ∧ jobIn J T tid ℓ) ∧
    (∀ S : SliceCtx T2, ∀ tid : ℕ,
      S.funcCells tid =
        ((S.allTiles.enumFrom 0).filter fun p =>
            decide ((jobRange S.nJobs S.nThreads tid).1 ≤ p.1) &&
            decide (p.1 < (jobRange S.nJobs S.nThreads tid).2)).flatMap
          (fun p => S.tileCellsOf p.2)) ∧
    (∀ S : SliceCtx T2, 0 < S.C.mc → 0 < S.C.MR → 0 < S.C.NR →
      ∀ r < S.C.A.m, ∀ c < S.nChunk,
        ∃! t : ℕ × ℕ × ℕ × ℕ, t ∈ S.allTiles ∧ S.tileContains t r c) := by
  refine ⟨jobRange_eq J T, ?_, ?_, ?_, funcCells_filter, ?_⟩
  · rintro t1 t2 ℓ h12 ⟨h1, h2⟩
    exact jobRange_disjoint J T t1 t2 ℓ h12 h1 h2
  · intro ℓ
    constructor
    · intro hl
      exact jobRange_cover J T ℓ hT hl
    · rintro ⟨tid, htid, hin⟩
      exact jobRange_subset J T tid ℓ hT htid hin
  · intro ℓ hl
    rcases jobRange_cover J T ℓ hT hl with ⟨tid, htid, hin⟩
    refine ⟨tid, ⟨htid, hin⟩, ?_⟩
    rintro tid2 ⟨htid2, hin2⟩
    by_contra hne
    exact jobRange_disjoint J T tid2 tid ℓ hne hin2 hin
  · intro S hmc hMR hNR
    exact tile_exists_unique S hmc hMR hNR

/-- Claim C6 (witness): the partition property instantiated at J = 5 jobs and
T = 2 threads over element type ℤ. -/
theorem c6_witness :
    (∀ tid, jobRange 5 2 tid =
      if tid < 5 % 2 then (tid * (5 / 2 + 1), tid * (5 / 2 + 1) + (5 / 2 + 1))
      else (5 % 2 + tid * (5 / 2), 5 % 2 + tid * (5 / 2) + 5 / 2)) ∧
    (∀ t1 t2 ℓ : ℕ, t1 ≠ t2 → ¬(jobIn 5 2 t1 ℓ ∧ jobIn 5 2 t2 ℓ)) ∧
    (∀ ℓ : ℕ, ℓ < 5 ↔ ∃ tid < 2, jobIn 5 2 tid ℓ) ∧
    (∀ ℓ < 5, ∃! tid : ℕ, tid < 2 ∧ jobIn 5 2 tid ℓ) ∧
    (∀ S : SliceCtx ℤ, ∀ tid : ℕ,
      S.funcCells tid =
        ((S.allTiles.enumFrom 0).filter fun p =>
            decide ((jobRange S.nJobs S.nThreads tid).1 ≤ p.1) &&
            decide (p.1 < (jobRange S.nJobs S.nThreads tid).2)).flatMap
          (fun p => S.tileCellsOf p.2)) ∧
    (∀ S : SliceCtx ℤ, 0 < S.C.mc → 0 < S.C.MR → 0 < S.C.NR →
      ∀ r < S.C.A.m, ∀ c < S.nChunk,
        ∃! t : ℕ × ℕ × ℕ × ℕ, t ∈ S.allTiles ∧ S.tileContains t r c) :=
  @c6_thm ℤ _ _ 5 2 (by omega)

theorem kernelCells_zero_mem {T : Type} [CommRing T] (alphaCur beta : T) (kChunk : ℕ)
    (dstA dstRs dstCs : ℤ) (lr : Mem T) (lA lCs : ℤ) (rr : Mem T) (rA rRs rCs : ℤ)
    (mTile nTile il jl : ℕ) (hil : il < mTile) (hjl : jl < nTile) :
    ∃ g : T → T,
      (dstA + (il : ℤ) * dstRs + (jl : ℤ) * dstCs, g) ∈
        kernelCells AlphaMode.zero alphaCur beta kChunk dstA dstRs dstCs
          lr lA lCs rr rA rRs rCs mTile nTile ∧
      ∀ v w, g v = g w := by
  refine ⟨fun d => beta * ∑ p ∈ Finset.range kChunk,
      lr (lA + (il : ℤ) + (p : ℤ) * lCs) * rr (rA + (p : ℤ) * rRs + (jl : ℤ) * rCs),
    ?_, fun v w => rfl⟩
  unfold kernelCells
  refine List.mem_flatMap.mpr ⟨jl, List.mem_range.mpr hjl, ?_⟩
  refine List.mem_map.mpr ⟨il, List.mem_range.mpr hil, ?_⟩
  rfl

theorem tileCells_zero_mem {T : Type} [CommRing T] [DecidableEq T] (S : SliceCtx T)
    (hmode : S.mode = AlphaMode.zero) (ro mCh j i il jl : ℕ)
    (hil : il < min S.C.MR (mCh - S.C.MR * i))
    (hjl : jl < min S.C.NR (S.nChunk - S.C.NR * j)) :
    ∃ g : T → T,
      (S.C.A.dst + ((ro + S.C.MR * i : ℕ) : ℤ) * S.C.A.dst_rs +
          ((S.colOuter + S.C.NR * j : ℕ) : ℤ) * S.C.A.dst_cs +
          (il : ℤ) * S.C.A.dst_rs + (jl : ℤ) * S.C.A.dst_cs, g) ∈
        S.tileCells ro mCh j i ∧
      ∀ v w, g v = g w := by
  rcases kernelCells_zero_mem S.alphaCur S.C.A.beta S.kChunk
    (S.C.A.dst + ((ro + S.C.MR * i : ℕ) : ℤ) * S.C.A.dst_rs +
      ((S.colOuter + S.C.NR * j : ℕ) : ℤ) * S.C.A.dst_cs)
    S.C.A.dst_rs S.C.A.dst_cs (S.lhsRead ro mCh) (S.lhsBase ro mCh i)
    (S.C.packedLhsCs mCh) S.rhsRead (S.rhsBase j) S.C.packedRhsRs S.C.packedRhsCs
    (min S.C.MR (mCh - S.C.MR * i)) (min S.C.NR (S.nChunk - S.C.NR * j)) il jl hil hjl
    with ⟨g, hg, hc⟩
  refine ⟨g, ?_, hc⟩
  unfold SliceCtx.tileCells
  dsimp only
  rw [hmode]
  exact hg

theorem allTiles_getElem {T : Type} (S : SliceCtx T) (pre post : List (ℕ × ℕ))
    (ro mCh j i : ℕ) (heq : S.C.bands = pre ++ (ro, mCh) :: post)
    (hj : j < S.nColMini) (hi : i < nRowMiniOf S.C.MR mCh) :
    S.allTiles[sumJobs S pre + (j * nRowMiniOf S.C.MR mCh + i)]? =
      some (ro, mCh, j, i) := by
  unfold SliceCtx.allTiles
  rw [heq, List.flatMap_append, List.flatMap_cons]
  rw [List.getElem?_append_right (by rw [flatMap_bandTiles_length]; omega)]
  rw [flatMap_bandTiles_length]
  have he : sumJobs S pre + (j * nRowMiniOf S.C.MR mCh + i) - sumJobs S pre =
      j * nRowMiniOf S.C.MR mCh + i := by omega
  rw [he]
  rw [List.getElem?_append_left (by
    rw [bandTiles_length]
    exact mul_add_lt_mul hj hi)]
  unfold SliceCtx.bandTiles
  dsimp only
  rw [List.getElem?_map, jiList_getElem _ _ j i hj hi]
  rfl

theorem chunksFrom_head (step total : ℕ) (h0 : 0 < total) :
    ∃ rest, chunksFrom step total = (0, min step total) :: rest := by
  cases total with
  | zero => omega
  | succ t =>
    apply Exists.intro
    show chunksFromAux step (t + 1) 0 (t + 1) = _
    unfold chunksFromAux
    rw [if_pos h0]
    dsimp only
    rw [Nat.sub_zero]

theorem slice_zero_const_cell {T : Type} [CommRing T] [DecidableEq T] (S : SliceCtx T)
    (hmode : S.mode = AlphaMode.zero) (hmc : 0 < S.C.mc) (hMR : 0 < S.C.MR)
    (hNR : 0 < S.C.NR) (hth : 1 ≤ S.C.nThreadsTop) :
    ∀ r < S.C.A.m, ∀ c < S.nChunk,
      ∃ g : T → T,
        (dstAddr S.C.A r (S.colOuter + c), g) ∈ S.cells ∧ ∀ v w, g v = g w := by
  intro r hr c hc
  rcases chunksFrom_cover S.C.mc S.C.A.m r hmc hr with ⟨pre, ro, mCh, post, heq, hro, hrm⟩
  have hbands : S.C.bands = pre ++ (ro, mCh) :: post := heq
  have hi : (r - ro) / S.C.MR < nRowMiniOf S.C.MR mCh := by
    unfold nRowMiniOf
    exact div_lt_ceil_div (r - ro) mCh S.C.MR hMR (by omega)
  have hj : c / S.C.NR < S.nColMini := by
    unfold SliceCtx.nColMini
    exact div_lt_ceil_div c S.nChunk S.C.NR hNR hc
  have hget := allTiles_getElem S pre post ro mCh (c / S.C.NR) ((r - ro) / S.C.MR)
    hbands hj hi
  have hjobs : sumJobs S pre +
      (c / S.C.NR * nRowMiniOf S.C.MR mCh + (r - ro) / S.C.MR) < S.nJobs := by
    rw [nJobs_eq, hbands, sumJobs_append, sumJobs_cons]
    have hbj : S.bandJobs (ro, mCh) = S.nColMini * nRowMiniOf S.C.MR mCh := rfl
    have h2 : c / S.C.NR * nRowMiniOf S.C.MR mCh + (r - ro) / S.C.MR <
        S.bandJobs (ro, mCh) := by
      rw [hbj]
      exact mul_add_lt_mul hj hi
    have h3 := Nat.add_lt_add_left h2 (sumJobs S pre)
    refine Nat.lt_of_lt_of_le h3 ?_
    exact Nat.add_le_add_left (Nat.le_add_right _ _) _
  rcases jobRange_cover S.nJobs S.nThreads _ (nThreads_pos S hth) hjobs with
    ⟨tid, htid, hjin⟩
  have hil : (r - ro) % S.C.MR < min S.C.MR (mCh - S.C.MR * ((r - ro) / S.C.MR)) := by
    have h1 := Nat.div_add_mod (r - ro) S.C.MR
    have h2 : (r - ro) % S.C.MR < S.C.MR := Nat.mod_lt _ hMR
    omega
  have hjl : c % S.C.NR < min S.C.NR (S.nChunk - S.C.NR * (c / S.C.NR)) := by
    have h1 := Nat.div_add_mod c S.C.NR
    have h2 : c % S.C.NR < S.C.NR := Nat.mod_lt _ hNR
    omega
  obtain ⟨g, hgmem, hgconst⟩ := tileCells_zero_mem S hmode ro mCh (c / S.C.NR)
    ((r - ro) / S.C.MR) ((r - ro) % S.C.MR) (c % S.C.NR) hil hjl
  have haddr : dstAddr S.C.A r (S.colOuter + c) =
      S.C.A.dst + ((ro + S.C.MR * ((r - ro) / S.C.MR) : ℕ) : ℤ) * S.C.A.dst_rs +
        ((S.colOuter + S.C.NR * (c / S.C.NR) : ℕ) : ℤ) * S.C.A.dst_cs +
        (((r - ro) % S.C.MR : ℕ) : ℤ) * S.C.A.dst_rs +
        ((c % S.C.NR : ℕ) : ℤ) * S.C.A.dst_cs := by
    have h3 : ro + S.C.MR * ((r - ro) / S.C.MR) + (r - ro) % S.C.MR = r := by
      have := Nat.div_add_mod (r - ro) S.C.MR
      omega
    have h4 : S.C.NR * (c / S.C.NR) + c % S.C.NR = c := Nat.div_add_mod c S.C.NR
    unfold dstAddr
    generalize hq : (r - ro) / S.C.MR = q at h3 ⊢
    generalize hv : (r - ro) % S.C.MR = v at h3 ⊢
    generalize hu : c / S.C.NR = u at h4 ⊢
    generalize hw : c % S.C.NR = w at h4 ⊢
    rw [← h3, ← h4]
    push_cast
    ring
  refine ⟨g, ?_, hgconst⟩
  rw [haddr]
  unfold SliceCtx.cells
  refine List.mem_flatMap.mpr ⟨tid, List.mem_range.mpr htid, ?_⟩
  rw [funcCells_filter]
  refine List.mem_flatMap.mpr
    ⟨(sumJobs S pre + (c / S.C.NR * nRowMiniOf S.C.MR mCh + (r - ro) / S.C.MR),
      (ro, mCh, c / S.C.NR, (r - ro) / S.C.MR)), ?_, ?_⟩
  · refine List.mem_filter.mpr ⟨mem_enumFrom_zero_of_getElem hget, ?_⟩
    simp only [Bool.and_eq_true, decide_eq_true_eq]
    exact ⟨hjin.1, hjin.2⟩
  · unfold SliceCtx.tileCellsOf
    dsimp only
    exact hgmem

theorem driver_const_cell {T : Type} [CommRing T] [DecidableEq T] (C : DriverCtx T)
    (hrd : C.A.read_dst = false) (hmc : 0 < C.mc) (hnc : 0 < C.nc)
    (hMR : 0 < C.MR) (hNR : 0 < C.NR) (hth : 1 ≤ C.nThreadsTop) (hk : 0 < C.A.k) :
    ∀ r < C.A.m, ∀ c < C.A.n,
      ∃ g : T → T, (dstAddr C.A r c, g) ∈ (driverCellsTrace C).1 ∧ ∀ v w, g v = g w := by
  intro r hr c hc
  rcases chunksFrom_cover C.nc C.A.n c hnc hc with ⟨preP, cO, nCh, postP, heqP, hcol, hcn⟩
  have hmode : (⟨C, cO, nCh, 0, min C.kc C.A.k,
      if C.A.read_dst then C.A.alpha else 0⟩ : SliceCtx T).mode = AlphaMode.zero := by
    simp [SliceCtx.mode, modeOf, hrd]
  obtain ⟨g, hgmem, hgconst⟩ := slice_zero_const_cell
    (⟨C, cO, nCh, 0, min C.kc C.A.k, if C.A.read_dst then C.A.alpha else 0⟩ : SliceCtx T)
    hmode hmc hMR hNR hth r hr (c - cO) (show c - cO < nCh by omega)
  refine ⟨g, ?_, hgconst⟩
  have hca : cO + (c - cO) = c := by omega
  have haddr : dstAddr C.A r c = dstAddr C.A r (cO + (c - cO)) := by rw [hca]
  rw [haddr]
  unfold driverCellsTrace
  dsimp only
  apply foldr_pair_mem_cells (chunksFrom C.nc C.A.n)
    (fun p => depthGo C p.1 p.2 (chunksFrom C.kc C.A.k)
      (if C.A.read_dst then C.A.alpha else 0) 0)
    (cO, nCh) ?_ _ ?_
  · rw [heqP]
    exact List.mem_append_right _ (List.mem_cons_self _ _)
  · rcases chunksFrom_head C.kc C.A.k hk with ⟨restD, hhead⟩
    dsimp only
    rw [hhead]
    unfold depthGo
    dsimp only
    exact List.mem_append_left _ hgmem

/-- Claim C10: whenever `read_dst` is false, every first depth slice of every
column panel runs with logical α = 0 and the zero-mode kernel table, and the
final contents of D are independent of its initial contents: two runs of the
engine that differ only in the initial destination memory write identical
values to every destination element. -/
theorem c10_thm {T : Type} [CommRing T] [DecidableEq T] (mulAdd : T → T → T → T)
    (kpf : ℕ → ℕ → ℕ → ℕ → ℕ → ℕ → KParams) (N MR NR simdStride sizeofT nThreads : ℕ)
    (memOp : Mem T) (A : GArgs T) (memD1 memD2 : Mem T)
    (hrd : A.read_dst = false) (hMR : 0 < MR) (hNR : 0 < NR) (hth : 1 ≤ nThreads)
    (hkp : ∀ mm nn kk : ℕ, 0 < (kpf mm nn kk MR NR sizeofT).mc ∧
      0 < (kpf mm nn kk MR NR sizeofT).nc) :
    (∀ si ∈ (gemm_basic_generic_cells mulAdd kpf N MR NR simdStride sizeofT nThreads
        memOp A).2, si.sliceIdx = 0 → si.alphaUsed = 0 ∧ si.mode = AlphaMode.zero) ∧
    (∀ i < A.m, ∀ j < A.n,
      gemm_basic_generic_run mulAdd kpf N MR NR simdStride sizeofT nThreads memOp A
          memD1 (dstAddr A i j) =
        gemm_basic_generic_run mulAdd kpf N MR NR simdStride sizeofT nThreads memOp A
          memD2 (dstAddr A i j)) := by
  constructor
  · intro si hsi h0
    unfold gemm_basic_generic_cells at hsi
    dsimp only at hsi
    split_ifs at hsi with h1 h2 h3 h4
    · cases hsi
    · cases hsi
    · cases hsi
    · cases hsi
    all_goals
      unfold driverCellsTrace at hsi
      dsimp only at hsi
      rcases foldr_pair_mem_trace _ _ _ hsi with ⟨p, hp, hsi2⟩
      rcases depthGo_alpha _ p.1 p.2 _ _ _ si hsi2 with ⟨hm, hidx, h5, h6⟩
      have halpha : si.alphaUsed = 0 := by
        rw [h5 h0, normalize_read, hrd]
        rfl
      refine ⟨halpha, ?_⟩
      rw [hm, halpha]
      unfold modeOf
      rw [if_pos rfl]
  · intro i hi j hj
    unfold gemm_basic_generic_run
    apply applyCells_agree_of_const
    rcases invOf_lt_origOf A i j hi hj with ⟨hp1, hp2, hpo⟩
    have haddr : dstAddr (normalize A) (invOf A (i, j)).1 (invOf A (i, j)).2 =
        dstAddr A i j := by
      rw [normalize_dstAddr A _ _ hp1 hp2,
        show ((invOf A (i, j)).1, (invOf A (i, j)).2) = invOf A (i, j) from rfl, hpo]
    unfold gemm_basic_generic_cells
    dsimp only
    rw [if_neg (by omega)]
    by_cases hk0 : (normalize A).k = 0
    · rw [if_pos hk0]
      refine ⟨fun d => if (normalize A).read_dst then (normalize A).alpha * d else 0,
        ?_, ?_⟩
      · unfold zeroDstCells
        refine List.mem_map.mpr ⟨((invOf A (i, j)).1, (invOf A (i, j)).2),
          mem_gridPairs.mpr ⟨hp1, hp2⟩, ?_⟩
        rw [haddr]
      · intro v w
        simp [normalize_read, hrd]
    · rw [if_neg hk0]
      by_cases hk1 : (normalize A).k = 1
      · rw [if_pos hk1]
        have hB : (normalize A).read_dst = false := by rw [normalize_read]; exact hrd
        refine ⟨fun d =>
            memOp ((normalize A).lhs + ((invOf A (i, j)).1 : ℤ) * (normalize A).lhs_rs) *
              ((normalize A).beta *
                memOp ((normalize A).rhs + ((invOf A (i, j)).2 : ℤ) * (normalize A).rhs_cs)),
          ?_, ?_⟩
        · unfold kOneCells
          rw [if_neg (by rw [hB]; exact Bool.false_ne_true)]
          refine List.mem_map.mpr ⟨((invOf A (i, j)).1, (invOf A (i, j)).2),
            mem_gridPairs.mpr ⟨hp1, hp2⟩, ?_⟩
          dsimp only
          rw [haddr]
        · intro v w
          rfl
      · rw [if_neg hk1]
        by_cases hgv : (normalize A).n ≤ 4 ∧
            (normalize A).lhs_rs.natAbs ≤ (normalize A).lhs_cs.natAbs
        · rw [if_pos hgv]
          refine ⟨fun d => if (normalize A).read_dst then (normalize A).alpha * d else 0,
            ?_, ?_⟩
          · unfold gemvCells
            apply List.mem_append_left
            unfold zeroDstCells
            refine List.mem_map.mpr ⟨((invOf A (i, j)).1, (invOf A (i, j)).2),
              mem_gridPairs.mpr ⟨hp1, hp2⟩, ?_⟩
            rw [haddr]
          · intro v w
            simp [normalize_read, hrd]
        · rw [if_neg hgv]
          have hrd2 : (normalize A).read_dst = false := by
            rw [normalize_read]; exact hrd
          have hk2 : 0 < (normalize A).k := by omega
          obtain ⟨g, hgmem, hgconst⟩ := driver_const_cell
            (⟨normalize A, N, MR, NR,
              (kpf (normalize A).m (normalize A).n (normalize A).k MR NR sizeofT).kc,
              (kpf (normalize A).m (normalize A).n (normalize A).k MR NR sizeofT).mc,
              (kpf (normalize A).m (normalize A).n (normalize A).k MR NR sizeofT).nc,
              simdStride,
              if (normalize A).m *
                  (kpf (normalize A).m (normalize A).n (normalize A).k MR NR sizeofT).nc *
                  (kpf (normalize A).m (normalize A).n (normalize A).k MR NR sizeofT).kc ≤
                  48 * 48 * 256 then 1 else nThreads,
              memOp⟩ : DriverCtx T)
            hrd2 (hkp _ _ _).1 (hkp _ _ _).2 hMR hNR
            (show 1 ≤ (if (normalize A).m *
                (kpf (normalize A).m (normalize A).n (normalize A).k MR NR sizeofT).nc *
                (kpf (normalize A).m (normalize A).n (normalize A).k MR NR sizeofT).kc ≤
                48 * 48 * 256 then 1 else nThreads) by split_ifs <;> omega)
            hk2 (invOf A (i, j)).1 hp1 (invOf A (i, j)).2 hp2
          refine ⟨g, ?_, hgconst⟩
          rw [← haddr]
          exact hgmem

/-- Claim C10 (witness): the destination-independence property on the concrete
driver-path input `exDrv` (`read_dst = false`), comparing a run with D
initially all 5 against a run with D initially all 9. -/
theorem c10_witness :
    (∀ si ∈ (gemm_basic_generic_cells (fun a b c => a * b + c) (kpfConst ⟨1, 2, 4⟩)
        1 2 4 8 8 2 (fun _ => (1 : ℤ)) exDrv).2,
      si.sliceIdx = 0 → si.alphaUsed = 0 ∧ si.mode = AlphaMode.zero) ∧
    (∀ i < exDrv.m, ∀ j < exDrv.n,
      gemm_basic_generic_run (fun a b c => a * b + c) (kpfConst ⟨1, 2, 4⟩) 1 2 4 8 8 2
          (fun _ => (1 : ℤ)) exDrv (fun _ => (5 : ℤ)) (dstAddr exDrv i j) =
        gemm_basic_generic_run (fun a b c => a * b + c) (kpfConst ⟨1, 2, 4⟩) 1 2 4 8 8 2
          (fun _ => (1 : ℤ)) exDrv (fun _ => (9 : ℤ)) (dstAddr exDrv i j)) :=
  c10_thm (fun a b c => a * b + c) (kpfConst ⟨1, 2, 4⟩) 1 2 4 8 8 2 (fun _ => (1 : ℤ))
    exDrv (fun _ => (5 : ℤ)) (fun _ => (9 : ℤ)) (by decide) (by decide) (by decide)
    (by decide) (fun _ _ _ => ⟨by show (0 : ℕ) < 2; decide, by show (0 : ℕ) < 4; decide⟩)

end GemmModel
